import Mathlib

/-!
The program uhaul: dependency resolution and relocation.

A shallow embedding of `cmd/root.go` (functions `uhaulIt`, `deps`, `copyFile`,
`makeDirectories`, `cleanDirectory`) together with models of the collaborators
the file calls: the graph library `github.com/heimdalr/dag`, the operating
system, the dependency lister `ldd.List` and the `patchelf` command.

Every call the program makes to a collaborator is recorded, in order, in a
trace of `Event`s, so that statements about "the operations performed" are
statements about that trace.
-/

namespace Uhaul

/-! ## The graph library `github.com/heimdalr/dag` (v1 API) -/

/-- Modelled from the spec: the vertex ids of the graph library
`github.com/heimdalr/dag`, whose source is not part of the repository. The
library draws a fresh `uuid` string for every vertex; the model uses the
number of vertices already stored, which is fresh as well. -/
abbrev VertexID := Nat

/-- Modelled from the spec: the errors of the graph library
`github.com/heimdalr/dag` (not part of the repository) that the calls in
`root.go` can meet. -/
inductive DagError
  | vertexDuplicate
  | idDuplicate
  | idUnknown
  | srcDstEqual
  | edgeDuplicate
  | edgeLoop
  deriving DecidableEq

/-- Modelled from the spec: the graph of section 4.2, which `root.go` takes
from the library `github.com/heimdalr/dag` (v1, not part of the repository).
The field `vertexIds` is the map `d.vertexIds` from id to vertex value (the
map `d.vertices` from value to id is its inverse), and `edges` holds the pairs
`(src, dst)` with `dst` in `d.outboundEdge[src]` (`d.inboundEdge` is its
mirror image). Vertex values are the file paths. -/
structure DAG where
  vertexIds : List (VertexID × String)
  edges : List (String × String)
  deriving DecidableEq

/-- Modelled from the spec: the empty graph of `dag.NewDAG()` ("built fresh
per invocation"). -/
def NewDAG : DAG := ⟨[], []⟩

/-- The vertex values stored in the graph. -/
def DAG.values (d : DAG) : List String := d.vertexIds.map Prod.snd

/-- Modelled from the spec: the call `d.AddVertex(v)` of the library (the
`add_vertex` of section 4.2, which never creates a second vertex for a path).
It draws a fresh id, fails with `VertexDuplicateError` when the value is
already a vertex (the error is how `root.go` learns that the vertex already
existed) and with `IDDuplicateError` when the id is in use, and otherwise
stores the vertex. An id is returned in every case; `deps` uses it only when
there is no error. -/
def DAG.AddVertex (d : DAG) (v : String) : (VertexID × Option DagError) × DAG :=
  let id : VertexID := d.vertexIds.length
  if v ∈ d.values then ((id, some .vertexDuplicate), d)
  else if (d.vertexIds.lookup id).isSome then ((id, some .idDuplicate), d)
  else ((id, none), { d with vertexIds := d.vertexIds ++ [(id, v)] })

/-- The direct successors of a vertex value. -/
def DAG.children (d : DAG) (v : String) : List String :=
  (d.edges.filter (fun e => e.1 = v)).map Prod.snd

/-- Successors reachable in at most `n` steps (and at least one). -/
def DAG.descendantsAux (d : DAG) : Nat → String → List String
  | 0, _ => []
  | n + 1, v => (d.children v).flatMap (fun c => c :: d.descendantsAux n c)

/-- Modelled from the spec: the set of all descendants of the value `v`
(the library's `d.getDescendants(v)`, "the full transitive closure" of the
spec). A path in an acyclic graph visits each vertex at most once, so the
number of vertices bounds the depth of the library's recursion. -/
def DAG.getDescendants (d : DAG) (v : String) : List String :=
  (d.descendantsAux d.vertexIds.length v).dedup

/-- Modelled from the spec: the call `d.AddEdge(srcID, dstID)` of the library
(the `add_edge` of section 4.2). Both ids must be known and different, the
edge must be new and must not close a loop. -/
def DAG.AddEdge (d : DAG) (srcID dstID : VertexID) : Option DagError × DAG :=
  match d.vertexIds.lookup srcID, d.vertexIds.lookup dstID with
  | none, _ => (some .idUnknown, d)
  | some _, none => (some .idUnknown, d)
  | some src, some dst =>
    if srcID = dstID then (some .srcDstEqual, d)
    else if (src, dst) ∈ d.edges then (some .edgeDuplicate, d)
    else if src ∈ d.getDescendants dst then (some .edgeLoop, d)
    else (none, { d with edges := d.edges ++ [(src, dst)] })

/-- Modelled from the spec: the call `d.GetDescendants(id)` of the library
(the `descendants` of section 4.2): the map from id to vertex value of all
descendants of the vertex `id`, as a list of its entries (a Go map has no
order). -/
def DAG.GetDescendants (d : DAG) (id : VertexID) :
    Except DagError (List (VertexID × String)) :=
  match d.vertexIds.lookup id with
  | none => .error .idUnknown
  | some v => .ok (d.vertexIds.filter (fun p => p.2 ∈ d.getDescendants v))

/-! ## Calls to collaborators -/

/-- File contents. -/
abbrev Bytes := List Nat

/-- A call made by the program to the operating system, the lister, the
patcher or the graph library, as recorded in the trace. For the two graph
calls the flag tells whether the call returned no error. -/
inductive Event
  | stat (p : String)
  | lookPath (file : String)
  | lddList (f : String)
  | addVertex (v : String) (ok : Bool)
  | addEdge (src dst : VertexID) (ok : Bool)
  | mkdirAll (p : String) (perm : Nat)
  | readDir (p : String)
  | removeAll (p : String)
  | readFile (p : String)
  | writeFile (p : String) (data : Bytes) (perm : Nat)
  | chmod (p : String) (mode : Nat)
  | patchelf (rpath target : String)
  deriving DecidableEq

/-- An error returned by `uhaulIt`, named after the call that produced it. -/
inductive Err
  | call (e : Event)
  | dag (e : DagError)
  deriving DecidableEq

/-! ## Dependency resolution (`deps`) -/

/-- Puts the events `evs`, which happened first, in front of the events of a
result. -/
def after {α : Type} (evs : List Event) (r : Option Err × α × List Event) :
    Option Err × α × List Event :=
  (r.1, r.2.1, evs ++ r.2.2)

/-- The loop `for _, dep := range lddDeps` of `deps`, with `recur` standing
for the recursive call. The result is `none` when the recursion did not
return; otherwise it is the returned error (if any), the graph reached and
the calls made. -/
def depsLoop (stat : String → Bool)
    (recur : String → VertexID → DAG → Option (Option Err × DAG × List Event))
    (vertex : VertexID) : List String → DAG → Option (Option Err × DAG × List Event)
  | [], d => some (none, d, [])
  | dep :: rest, d =>
    match d.AddVertex dep with
    | ((depName, none), d1) =>
      match d1.AddEdge vertex depName with
      | (none, d2) =>
        let evs : List Event :=
          [.addVertex dep true, .addEdge vertex depName true, .stat dep]
        if stat dep then
          match recur dep depName d2 with
          | none => none
          | some (some e, d3, t3) => some (some e, d3, evs ++ t3)
          | some (none, d3, t3) =>
            (depsLoop stat recur vertex rest d3).map (after (evs ++ t3))
        else some (some (.call (.stat dep)), d2, evs)
      | (some _, d2) =>
        (depsLoop stat recur vertex rest d2).map
          (after [.addVertex dep true, .addEdge vertex depName false])
    | ((_, some _), d1) =>
      (depsLoop stat recur vertex rest d1).map (after [.addVertex dep false])

/-- The function `deps(f, vertex, d)`. `list` is `ldd.List` and `stat p` tells whether
`os.Stat(p)` succeeds; neither changes during resolution, which only reads.
The first argument bounds the depth of the recursion: the result is `none`
when that depth does not suffice. -/
def deps (list : String → Option (List String)) (stat : String → Bool) :
    Nat → String → VertexID → DAG → Option (Option Err × DAG × List Event)
  | 0, _, _, _ => none
  | fuel + 1, f, vertex, d =>
    match list f with
    | none => some (some (.call (.lddList f)), d, [.lddList f])
    | some lddDeps =>
      (depsLoop stat (deps list stat fuel) vertex lddDeps d).map (after [.lddList f])

/-! ## Paths (`path/filepath` on Unix, `strings`) -/

/-- The call `strings.TrimPrefix(s, "/")` of `uhaulIt`. -/
def TrimSlash (s : String) : String :=
  match s.data with
  | '/' :: cs => ⟨cs⟩
  | _ => s

/-- The part of a path after its last separator, on characters. -/
def splitFile : List Char → Bool × List Char
  | [] => (false, [])
  | c :: cs =>
    match splitFile cs with
    | (true, file) => (true, file)
    | (false, file) => if c = '/' then (true, file) else (false, c :: file)

/-- The second component of `filepath.Split(path)`: what follows the last
separator (the whole path when there is none). -/
def fileOf (path : String) : String := ⟨(splitFile path.data).2⟩

/-- The elements of a path between its separators. -/
def elements : List Char → List (List Char)
  | [] => [[]]
  | c :: cs =>
    match elements cs with
    | [] => [[]]
    | e :: es => if c = '/' then [] :: e :: es else (c :: e) :: es

/-- One element of the loop of `filepath.Clean`; `out` holds the elements
written so far, last first. Empty and `.` elements are dropped, `..` removes
the last element when there is one to remove and is kept otherwise (dropped
when the path is rooted). -/
def cleanStep (rooted : Bool) (out : List (List Char)) (e : List Char) :
    List (List Char) :=
  if e = [] ∨ e = ['.'] then out
  else if e = ['.', '.'] then
    match out with
    | [] => if rooted then [] else [e]
    | top :: below => if top = ['.', '.'] then e :: out else below
  else e :: out

/-- The function `filepath.Clean(path)`. -/
def Clean (path : String) : String :=
  let rooted : Bool := path.data.head? = some '/'
  let out := ((elements path.data).foldl (cleanStep rooted) []).reverse
  let body : List Char := List.intercalate ['/'] out
  if rooted then ⟨'/' :: body⟩ else if out = [] then "." else ⟨body⟩

/-- The function `filepath.Join(a, b)`. -/
def Join (a b : String) : String :=
  if a = "" then (if b = "" then "" else Clean b) else Clean (a ++ "/" ++ b)

/-! ## The operating system, the lister and the patcher -/

/-- What the program calls outside itself, over a state `σ` of the file
system. Read-only calls return their result; the others return whether they
succeeded and the new state. -/
structure World (σ : Type) where
  /-- Whether `os.Stat(p)` returns no error. -/
  stat : σ → String → Bool
  /-- The result of `exec.LookPath(file)`. -/
  lookPath : σ → String → Option String
  /-- The result of `ldd.List(f)`. -/
  lddList : σ → String → Option (List String)
  /-- The call `os.MkdirAll(p, perm)`. -/
  mkdirAll : σ → String → Nat → Bool × σ
  /-- The result of `os.ReadDir(p)`: the names of the entries of `p`. -/
  readDir : σ → String → Option (List String)
  /-- The call `os.RemoveAll(p)`. -/
  removeAll : σ → String → Bool × σ
  /-- The result of `os.ReadFile(p)`. -/
  readFile : σ → String → Option Bytes
  /-- The call `os.WriteFile(p, data, perm)`. -/
  writeFile : σ → String → Bytes → Nat → Bool × σ
  /-- The call `os.Chmod(p, mode)`. -/
  chmod : σ → String → Nat → Bool × σ
  /-- The command `patchelf --set-rpath <rpath> <target>`. -/
  patchelf : σ → String → String → Bool × σ
  /-- What `exec.LookPath` returns is a file that `os.Stat` finds: it looks the
  candidates up with `os.Stat` itself. -/
  lookPath_stat : ∀ s file p, lookPath s file = some p → stat s p = true

/-- The command-line flags read by `uhaulIt`. -/
structure Flags where
  prefixDir : String
  out : String
  clean : Bool

variable {σ : Type}

/-- The result of a mutating call as a step of the program: the error to
return (if the call failed), the new state and the call made. -/
def call (r : Bool × σ) (e : Event) : Option Err × σ × List Event :=
  (if r.1 then none else some (.call e), r.2, [e])

/-- Sequencing with `if err != nil { return err }`. -/
def andThen (r : Option Err × σ × List Event)
    (k : σ → Option Err × σ × List Event) : Option Err × σ × List Event :=
  match r with
  | (some e, s, t) => (some e, s, t)
  | (none, s, t) => after t (k s)

/-- The function `copyFile(src, dst, executable)`. -/
def copyFile (w : World σ) (src dst : String) (executable : Bool) (s : σ) :
    Option Err × σ × List Event :=
  match w.readFile s src with
  | none => (some (.call (.readFile src)), s, [.readFile src])
  | some data =>
    after [.readFile src]
      (andThen (call (w.writeFile s dst data 0o755) (.writeFile dst data 0o755)) fun s =>
        if executable then call (w.chmod s dst 0o755) (.chmod dst 0o755)
        else (none, s, []))

/-- The function `makeDirectories(p)`. -/
def makeDirectories (w : World σ) (p : String) (s : σ) : Option Err × σ × List Event :=
  call (w.mkdirAll s p 0o755) (.mkdirAll p 0o755)

/-- The loop `for _, f := range files` of `cleanDirectory`, over the names of
the entries. -/
def removeLoop (w : World σ) : List String → σ → Option Err × σ × List Event
  | [], s => (none, s, [])
  | name :: rest, s =>
    andThen (call (w.removeAll s name) (.removeAll name)) (removeLoop w rest)

/-- The function `cleanDirectory(p)`, whose comment reads "delete all the children of a
directory". -/
def cleanDirectory (w : World σ) (p : String) (s : σ) : Option Err × σ × List Event :=
  match w.readDir s p with
  | none => (some (.call (.readDir p)), s, [.readDir p])
  | some files => after [.readDir p] (removeLoop w files s)

/-- The loop `for _, lib := range m` of `uhaulIt`, over the entries of the
map in the order in which they are visited. -/
def libsLoop (w : World σ) (libDir : String) :
    List (VertexID × String) → σ → Option Err × σ × List Event
  | [], s => (none, s, [])
  | (_, libs) :: rest, s =>
    let libOut := Join libDir (fileOf libs)
    andThen (copyFile w libs libOut false s) fun s =>
    andThen (call (w.patchelf s "$ORIGIN" libOut) (.patchelf "$ORIGIN" libOut))
      (libsLoop w libDir rest)

/-- The part of `uhaulIt` after the closure `m` has been computed: layout of
the output directory, copies and patches. -/
def relocate (w : World σ) (flags : Flags) (bin : String)
    (m : List (VertexID × String)) (s : σ) : Option Err × σ × List Event :=
  let prefixDir := TrimSlash flags.prefixDir
  let outputDir := flags.out
  andThen (makeDirectories w outputDir s) fun s =>
  andThen (if flags.clean then cleanDirectory w outputDir s else (none, s, [])) fun s =>
  let out := Join outputDir prefixDir
  andThen (makeDirectories w out s) fun s =>
  let binDir := Join out "bin"
  andThen (makeDirectories w binDir s) fun s =>
  let binOut := Join binDir (fileOf bin)
  andThen (copyFile w bin binOut true s) fun s =>
  let libDir := Join out "lib"
  andThen (makeDirectories w libDir s) fun s =>
  andThen (call (w.patchelf s "$ORIGIN/../lib" binOut) (.patchelf "$ORIGIN/../lib" binOut))
    (libsLoop w libDir m)

/-- The first lines of `uhaulIt`: the binary is `args[0]` when `os.Stat`
finds it and what `exec.LookPath` returns otherwise. -/
def locate (w : World σ) (s : σ) (arg : String) : Option String × List Event :=
  if w.stat s arg then (some arg, [.stat arg])
  else (w.lookPath s arg, [.stat arg, .lookPath arg])

/-- The function `uhaulIt(cmd, args)` with `arg` for `args[0]` (the command takes exactly
one argument). `rangeOrder` is the order in which `range` visits the entries
of the map `m`, which Go leaves open. The result is `none` when the depth
`fuel` does not suffice for `deps`. Logging and printing are left out. -/
def uhaulIt (w : World σ) (rangeOrder : List (VertexID × String) → List (VertexID × String))
    (fuel : Nat) (flags : Flags) (arg : String) (s : σ) :
    Option (Option Err × σ × List Event) :=
  match locate w s arg with
  | (none, t0) => some (some (.call (.lookPath arg)), s, t0)
  | (some bin, t0) =>
    match NewDAG.AddVertex bin with
    | ((binary, e0), d) =>
      let t1 := t0 ++ [.addVertex bin e0.isNone]
      match deps (w.lddList s) (w.stat s) fuel bin binary d with
      | none => none
      | some (some e, _, t2) => some (some e, s, t1 ++ t2)
      | some (none, d2, t2) =>
        match d2.GetDescendants binary with
        | .error e => some (some (.dag e), s, t1 ++ t2)
        | .ok m => some (after (t1 ++ t2) (relocate w flags bin (rangeOrder m) s))


/-! ## Notions used in the statements -/

/-- A direct-dependency step of the lister: `b` is among the dependencies
that `list` reports for `a`. -/
def listStep (list : String → Option (List String)) (a b : String) : Prop :=
  ∃ ds, list a = some ds ∧ b ∈ ds

/-- The graph `d` with the new vertex `dep` and the edge from `f` to it. -/
def DAG.extend (d : DAG) (f dep : String) : DAG :=
  ⟨d.vertexIds ++ [(d.vertexIds.length, dep)], d.edges ++ [(f, dep)]⟩

/-- The graphs that `deps` builds from the graph holding only the root `root`:
ids are the positions, values are distinct, the root comes first, every other
vertex is the target of exactly one edge (the targets of the edges, in order,
are the vertices after the root), and every edge goes from an older vertex to
a newer one along a step of the lister. -/
structure Inv (list : String → Option (List String)) (root : String) (d : DAG) : Prop where
  ids : d.vertexIds.map Prod.fst = List.range d.vertexIds.length
  vals : d.values.Nodup
  root : d.vertexIds.head? = some (0, root)
  tails : d.edges.map Prod.snd = d.values.tail
  esrc : ∀ e ∈ d.edges, ∃ i j, (i, e.1) ∈ d.vertexIds ∧ (j, e.2) ∈ d.vertexIds ∧ i < j
  estep : ∀ e ∈ d.edges, listStep list e.1 e.2

/-- The paths for which the lister is queried, in order. -/
def queries (t : List Event) : List String :=
  t.filterMap fun ev =>
    match ev with
    | .lddList f => some f
    | _ => none

/-- The calls of the resolution stage: look-ups of files, queries of the
lister, and calls to the graph library, of which `AddEdge` returned no error. -/
def Event.resolving : Event → Bool
  | .stat _ => true
  | .lookPath _ => true
  | .lddList _ => true
  | .addVertex _ _ => true
  | .addEdge _ _ ok => ok
  | _ => false

/-- The lister answers for `x` and all the dependencies it reports are
vertices of `d`. -/
def Closed (list : String → Option (List String)) (d : DAG) (x : String) : Prop :=
  ∃ ds, list x = some ds ∧ ∀ y ∈ ds, y ∈ d.values

/-- What a call `deps(f, vertex, d)` that returned `r` guarantees. -/
structure Post (list : String → Option (List String)) (stat : String → Bool) (root : String)
    (d : DAG) (f : String) (r : Option Err × DAG × List Event) : Prop where
  inv : Inv list root r.2.1
  grows : d.vertexIds <+: r.2.1.vertexIds
  closed : r.1 = none → Closed list r.2.1 f ∧
    ∀ x ∈ r.2.1.values, x ∉ d.values → Closed list r.2.1 x ∧ stat x = true
  fresh : ∀ q ∈ queries r.2.2, q = f ∨ (q ∈ r.2.1.values ∧ q ∉ d.values)
  once : (queries r.2.2).Nodup
  calls : ∀ ev ∈ r.2.2, ev.resolving = true

/-- What the loop of `deps` guarantees when run on the dependencies `rest`. -/
structure LoopPost (list : String → Option (List String)) (stat : String → Bool) (root : String)
    (d : DAG) (rest : List String) (r : Option Err × DAG × List Event) : Prop where
  inv : Inv list root r.2.1
  grows : d.vertexIds <+: r.2.1.vertexIds
  closed : r.1 = none → (∀ y ∈ rest, y ∈ r.2.1.values) ∧
    ∀ x ∈ r.2.1.values, x ∉ d.values → Closed list r.2.1 x ∧ stat x = true
  fresh : ∀ q ∈ queries r.2.2, q ∈ r.2.1.values ∧ q ∉ d.values
  once : (queries r.2.2).Nodup
  calls : ∀ ev ∈ r.2.2, ev.resolving = true

/-- The graph after a call of the trace: the two calls that change it are
carried out again. -/
def DAG.step (d : DAG) : Event → DAG
  | .addVertex v _ => (d.AddVertex v).2
  | .addEdge src dst _ => (d.AddEdge src dst).2
  | _ => d

/-- The graph after the calls of a trace. -/
def DAG.replay (d : DAG) (t : List Event) : DAG :=
  t.foldl DAG.step d

/-- After the calls `pre`, made from the graph `d`, the vertex with the id
`dst` is the one that the last of these calls has just added, and no edge
touches it. -/
def FreshTarget (d : DAG) (pre : List Event) (dst : VertexID) : Prop :=
  ∃ pre2 v, pre = pre2 ++ [Event.addVertex v true] ∧ v ∉ (d.replay pre2).values ∧
    (d.replay pre).vertexIds.lookup dst = some v ∧
    ∀ e ∈ (d.replay pre).edges, e.1 ≠ v ∧ e.2 ≠ v

/-- The calls `t` lead from the graph `d` to the graph `d2`; every call of
`AddEdge` among them is made towards a vertex just added that no edge touches,
and after it the graph is one of those that `deps` builds. -/
structure Points (list : String → Option (List String)) (root : String) (d d2 : DAG)
    (t : List Event) : Prop where
  replay : d.replay t = d2
  points : ∀ pre src dst ok post, t = pre ++ Event.addEdge src dst ok :: post →
    Inv list root (d.replay (pre ++ [Event.addEdge src dst ok]))
  fresh : ∀ pre src dst ok post, t = pre ++ Event.addEdge src dst ok :: post →
    FreshTarget d pre dst

/-- How many of the paths of `univ` are not yet vertices of `d`. -/
def missing (univ : List String) (d : DAG) : Nat :=
  (univ.toFinset.filter (fun x => x ∉ d.values)).card

/-- Resolution as `uhaulIt` starts it: `deps` on the binary, in the graph that
holds only the vertex of the binary. -/
def resolve (list : String → Option (List String)) (stat : String → Bool) (fuel : Nat)
    (bin : String) : Option (Option Err × DAG × List Event) :=
  deps list stat fuel bin (NewDAG.AddVertex bin).1.1 (NewDAG.AddVertex bin).2

/-- The sources of the copies of a trace, in order: the files read. -/
def copySources (t : List Event) : List String :=
  t.filterMap fun ev =>
    match ev with
    | .readFile p => some p
    | _ => none

/-- The search-path patches of a trace, in order: search path and target. -/
def patches (t : List Event) : List (String × String) :=
  t.filterMap fun ev =>
    match ev with
    | .patchelf rpath target => some (rpath, target)
    | _ => none

/-- The calls of the relocation stage: directory creation, clean, copy and
patch. -/
def Event.relocating : Event → Bool
  | .mkdirAll _ _ => true
  | .readDir _ => true
  | .removeAll _ => true
  | .readFile _ => true
  | .writeFile _ _ _ => true
  | .chmod _ _ => true
  | .patchelf _ _ => true
  | _ => false

/-- The calls of a copy: read, write and change of mode. -/
def Event.copying : Event → Bool
  | .readFile _ => true
  | .writeFile _ _ _ => true
  | .chmod _ _ => true
  | _ => false

/-- The patches. -/
def Event.patching : Event → Bool
  | .patchelf _ _ => true
  | _ => false

/-- The calls that lay the output directory out: directory creation and
clean. -/
def Event.layout : Event → Bool
  | .mkdirAll _ _ => true
  | .readDir _ => true
  | .removeAll _ => true
  | _ => false

/-- The state of the file system after a call. -/
def World.exec (w : World σ) (s : σ) : Event → σ
  | .mkdirAll p perm => (w.mkdirAll s p perm).2
  | .removeAll p => (w.removeAll s p).2
  | .writeFile p data perm => (w.writeFile s p data perm).2
  | .chmod p mode => (w.chmod s p mode).2
  | .patchelf rpath target => (w.patchelf s rpath target).2
  | _ => s

/-- The state of the file system after the calls of a trace. -/
def World.run (w : World σ) (s : σ) (t : List Event) : σ :=
  t.foldl w.exec s

/-- The directory `out` of `uhaulIt`: the output directory joined with the
installation prefix without its leading separator. -/
def outDir (flags : Flags) : String := Join flags.out (TrimSlash flags.prefixDir)

/-- The place `binOut` of the copy of the binary. -/
def binOut (flags : Flags) (bin : String) : String :=
  Join (Join (outDir flags) "bin") (fileOf bin)

/-- The directory `libDir` of the copies of the libraries. -/
def libDir (flags : Flags) : String := Join (outDir flags) "lib"

/-- The place `libOut` of the copy of the library `libs`. -/
def libOut (flags : Flags) (libs : String) : String := Join (libDir flags) (fileOf libs)

/-- The copy and the patch of the binary in `uhaulIt`, with the creation of
the directory of the libraries in between. -/
def binEvents (flags : Flags) (bin : String) (data : Bytes) : List Event :=
  [.readFile bin, .writeFile (binOut flags bin) data 0o755, .chmod (binOut flags bin) 0o755,
    .mkdirAll (libDir flags) 0o755, .patchelf "$ORIGIN/../lib" (binOut flags bin)]

/-- The calls before the relocation stage, when the binary `bin` has been
found and resolution has made the calls `t2`. -/
def preamble (w : World σ) (s : σ) (arg bin : String) (t2 : List Event) : List Event :=
  ((locate w s arg).2 ++ [.addVertex bin true]) ++ t2

/-- The copy and the patch of one library in the loop of `uhaulIt`. -/
def libEvents (libDir libs : String) (data : Bytes) : List Event :=
  [.readFile libs, .writeFile (Join libDir (fileOf libs)) data 0o755,
    .patchelf "$ORIGIN" (Join libDir (fileOf libs))]

/-- The trace of a loop of `uhaulIt` that went through: for each entry, in
order, the library is read, what was read is written to its place under
`libDir`, and that copy is patched. -/
def LibsTrace (w : World σ) (libDir : String) :
    σ → List (VertexID × String) → List Event → Prop
  | _, [], t => t = []
  | s, (_, libs) :: rest, t =>
    ∃ data t2, w.readFile s libs = some data ∧ t = libEvents libDir libs data ++ t2 ∧
      LibsTrace w libDir (w.run s (libEvents libDir libs data)) rest t2

/-- The targets of the writes of a trace. -/
def writeTargets (t : List Event) : List String :=
  t.filterMap fun ev =>
    match ev with
    | .writeFile p _ _ => some p
    | _ => none

/-- Every patch of the trace has a target that is in `written` or that an
earlier call of the trace wrote. -/
def PatchesFollow (written : List String) (t : List Event) : Prop :=
  ∀ pre post rpath target, t = pre ++ Event.patchelf rpath target :: post →
    target ∈ written ∨ target ∈ writeTargets pre

/-- Every patch of the trace comes after a write to its target. -/
def PatchesFollowWrites (t : List Event) : Prop :=
  ∀ pre post rpath target, t = pre ++ Event.patchelf rpath target :: post →
    ∃ data perm, Event.writeFile target data perm ∈ pre

/-- The lister of the examples: it answers from a table and fails for a path
that the table does not hold. -/
def tableList (table : List (String × List String)) (p : String) : Option (List String) :=
  table.lookup p

/-- The chain `app -> libfoo.so -> libbar.so`. -/
def chainTable : List (String × List String) :=
  [("app", ["libfoo.so"]), ("libfoo.so", ["libbar.so"]), ("libbar.so", [])]

/-- Dependencies with cycles: `app -> a`, `a -> b, app`, `b -> a`. -/
def cycleTable : List (String × List String) :=
  [("app", ["a"]), ("a", ["b", "app"]), ("b", ["a"])]

/-- The default flags of the command: prefix `/opt/uhaul`, output directory
`./out`, clean. -/
def defaultFlags : Flags := ⟨"/opt/uhaul", "./out", true⟩

/-- The lister fails on `p`, or reports for `p` a dependency that is not on
disk. -/
def Failing (list : String → Option (List String)) (stat : String → Bool) (p : String) : Prop :=
  list p = none ∨ ∃ ds x, list p = some ds ∧ x ∈ ds ∧ stat x = false

/-- A small file system for the examples: the files with their contents.
Directories always exist, `patchelf` needs its target to exist and leaves the
content alone, and the lister answers from the table `table`. -/
def exWorld (table : List (String × List String)) (entries : List String) :
    World (List (String × Bytes)) where
  stat := fun s p => (s.lookup p).isSome
  lookPath := fun _ _ => none
  lddList := fun _ p => table.lookup p
  mkdirAll := fun s _ _ => (true, s)
  readDir := fun _ _ => some entries
  removeAll := fun s p => (true, s.filter (fun e => e.1 ≠ p))
  readFile := fun s p => s.lookup p
  writeFile := fun s p data _ => (true, (p, data) :: s.filter (fun e => e.1 ≠ p))
  chmod := fun s _ _ => (true, s)
  patchelf := fun s _ target => ((s.lookup target).isSome, s)
  lookPath_stat := by intro s file p h; cases h

/-- The binary `app` whose one dependency `libgone.so` is not on disk. -/
def goneWorld : World (List (String × Bytes)) := exWorld [("app", ["libgone.so"])] []

/-- The files of `goneWorld`. -/
def goneFiles : List (String × Bytes) := [("app", [0])]

/-- The chain `app -> libfoo.so -> libbar.so`, with an output directory that
holds the entry `old`. -/
def chainWorld : World (List (String × Bytes)) := exWorld chainTable ["old"]

/-- The files of `chainWorld`. -/
def chainFiles : List (String × Bytes) :=
  [("app", [0]), ("libfoo.so", [1]), ("libbar.so", [2])]

/-- The result of `uhaulIt` on the chain, with the default flags and the
entries of the closure visited in the order of their ids. -/
def chainRun : Option Err × List (String × Bytes) × List Event :=
  (uhaulIt chainWorld id 3 defaultFlags "app" chainFiles).getD (none, [], [])

/-- A binary without dependencies that already lies where the default flags
put its copy. -/
def inPlaceWorld : World (List (String × Bytes)) :=
  exWorld [("out/opt/uhaul/bin/app", [])] ["opt"]

/-- The files of `inPlaceWorld`. -/
def inPlaceFiles : List (String × Bytes) := [("out/opt/uhaul/bin/app", [0])]

/-- An output directory `out` with the one entry `old`, in a working
directory that holds a file `old` of its own. -/
def cleanWorld : World (List (String × Bytes)) := exWorld [] ["old"]

/-- The files of `cleanWorld`, by their paths relative to the working
directory. -/
def cleanFiles : List (String × Bytes) := [("out/old", [1]), ("old", [2])]


/-! ## Facts about the graph library -/

theorem mem_of_lookup {l : List (VertexID × String)} {k : VertexID} {v : String}
    (h : l.lookup k = some v) : (k, v) ∈ l := by
  obtain ⟨l1, l2, rfl, _⟩ := List.lookup_eq_some_iff.1 h
  simp

theorem lookup_of_mem {l : List (VertexID × String)} {k : VertexID} {v : String}
    (hn : (l.map Prod.fst).Nodup) (h : (k, v) ∈ l) : l.lookup k = some v := by
  induction l with
  | nil => simp at h
  | cons p l ih =>
    obtain ⟨k1, v1⟩ := p
    simp only [List.map_cons, List.nodup_cons, List.mem_map, not_exists, not_and] at hn
    rcases List.mem_cons.1 h with h1 | h1
    · cases h1
      simp
    · have hne : k ≠ k1 := by
        intro hk
        exact hn.1 (k, v) h1 hk
      rw [List.lookup_cons]
      have : (k == k1) = false := by simpa using hne
      rw [this]
      exact ih hn.2 h1

section InvLemmas
variable {list : String → Option (List String)} {root : String} {d : DAG}

theorem Inv.keys_nodup (h : Inv list root d) : (d.vertexIds.map Prod.fst).Nodup := by
  rw [h.ids]; exact List.nodup_range _

theorem Inv.id_lt (h : Inv list root d) {i : VertexID} {v : String}
    (hm : (i, v) ∈ d.vertexIds) : i < d.vertexIds.length := by
  have : i ∈ d.vertexIds.map Prod.fst := List.mem_map.2 ⟨(i, v), hm, rfl⟩
  rw [h.ids] at this
  exact List.mem_range.1 this

theorem Inv.lookup_fresh (h : Inv list root d) : d.vertexIds.lookup d.vertexIds.length = none := by
  rw [List.lookup_eq_none_iff]
  intro p hp
  have := h.id_lt (i := p.1) (v := p.2) hp
  simp only [bne_iff_ne, ne_eq]
  exact Nat.ne_of_gt this

theorem Inv.val_inj (h : Inv list root d) {i j : VertexID} {v : String}
    (hi : (i, v) ∈ d.vertexIds) (hj : (j, v) ∈ d.vertexIds) : i = j := by
  have hv := h.vals
  unfold DAG.values at hv
  have := List.inj_on_of_nodup_map hv hi hj rfl
  exact congrArg Prod.fst this

theorem Inv.key_inj (h : Inv list root d) {i : VertexID} {u v : String}
    (hi : (i, u) ∈ d.vertexIds) (hj : (i, v) ∈ d.vertexIds) : u = v := by
  have := List.inj_on_of_nodup_map h.keys_nodup hi hj rfl
  exact congrArg Prod.snd this

theorem Inv.edge_mem_values (h : Inv list root d) {a b : String} (he : (a, b) ∈ d.edges) :
    a ∈ d.values ∧ b ∈ d.values := by
  obtain ⟨i, j, hi, hj, _⟩ := h.esrc _ he
  exact ⟨List.mem_map.2 ⟨_, hi, rfl⟩, List.mem_map.2 ⟨_, hj, rfl⟩⟩

theorem children_eq_nil_of_not_mem {V : List (VertexID × String)} (h : Inv list root d)
    {v : String} (hv : v ∉ d.values) :
    DAG.children ⟨V, d.edges⟩ v = [] := by
  unfold DAG.children
  rw [List.map_eq_nil_iff, List.filter_eq_nil_iff]
  intro e he
  simp only [decide_eq_true_eq]
  intro hev
  have := (h.edge_mem_values (a := e.1) (b := e.2) he).1
  exact hv (hev ▸ this)

theorem descendantsAux_of_children_nil {d : DAG} {v : String} (h : d.children v = []) (n : Nat) :
    d.descendantsAux n v = [] := by
  cases n with
  | zero => rfl
  | succ n => simp [DAG.descendantsAux, h]

theorem AddVertex_dup {dep : String} (hd : dep ∈ d.values) :
    d.AddVertex dep = ((d.vertexIds.length, some .vertexDuplicate), d) := by
  simp [DAG.AddVertex, hd]

theorem AddVertex_new (h : Inv list root d) {dep : String} (hd : dep ∉ d.values) :
    d.AddVertex dep =
      ((d.vertexIds.length, none), ⟨d.vertexIds ++ [(d.vertexIds.length, dep)], d.edges⟩) := by
  simp [DAG.AddVertex, hd, h.lookup_fresh]

theorem AddEdge_new (h : Inv list root d) {f dep : String} {vertex : VertexID}
    (hv : d.vertexIds.lookup vertex = some f) (hd : dep ∉ d.values) :
    DAG.AddEdge ⟨d.vertexIds ++ [(d.vertexIds.length, dep)], d.edges⟩ vertex d.vertexIds.length
      = (none, d.extend f dep) := by
  have hlt : vertex < d.vertexIds.length := h.id_lt (mem_of_lookup hv)
  have h1 : (d.vertexIds ++ [(d.vertexIds.length, dep)]).lookup vertex = some f := by
    rw [List.lookup_append, hv]; rfl
  have h2 : (d.vertexIds ++ [(d.vertexIds.length, dep)]).lookup d.vertexIds.length = some dep := by
    rw [List.lookup_append, h.lookup_fresh]; simp
  have h3 : (f, dep) ∉ d.edges := fun he => hd (h.edge_mem_values he).2
  have h4 : DAG.children ⟨d.vertexIds ++ [(d.vertexIds.length, dep)], d.edges⟩ dep = [] :=
    children_eq_nil_of_not_mem h hd
  have h5 : f ∉ DAG.getDescendants ⟨d.vertexIds ++ [(d.vertexIds.length, dep)], d.edges⟩ dep := by
    unfold DAG.getDescendants
    rw [descendantsAux_of_children_nil h4]
    simp
  unfold DAG.AddEdge
  simp only [h1, h2]
  rw [if_neg (Nat.ne_of_lt hlt), if_neg h3, if_neg h5]
  rfl

theorem Inv.extend (h : Inv list root d) {f dep : String} {vertex : VertexID}
    (hv : d.vertexIds.lookup vertex = some f) (hd : dep ∉ d.values)
    (hs : listStep list f dep) : Inv list root (d.extend f dep) := by
  have hroot := h.root
  have htails := h.tails
  have hvals := h.vals
  obtain ⟨V, E⟩ := d
  cases V with
  | nil => simp at hroot
  | cons p V =>
    simp only [List.head?_cons, Option.some.injEq] at hroot
    subst hroot
    refine ⟨?_, ?_, ?_, ?_, ?_, ?_⟩
    · have := h.ids
      simp only [DAG.extend, List.map_append, List.length_append, List.length_singleton,
        List.map_cons, List.map_nil, List.range_succ] at this ⊢
      rw [this]
    · simp only [DAG.values, DAG.extend, List.map_append, List.map_cons, List.map_nil] at hvals hd ⊢
      exact List.Nodup.append hvals (List.nodup_singleton _) (by simpa using hd)
    · simp [DAG.extend]
    · simp only [DAG.values, DAG.extend, List.map_append, List.map_cons, List.map_nil,
        List.cons_append, List.tail_cons] at htails ⊢
      rw [htails]
    · intro e he
      simp only [DAG.extend, List.mem_append, List.mem_singleton] at he ⊢
      rcases he with he | rfl
      · obtain ⟨i, j, hi, hj, hij⟩ := h.esrc e he
        exact ⟨i, j, Or.inl hi, Or.inl hj, hij⟩
      · exact ⟨vertex, _, Or.inl (mem_of_lookup hv), Or.inr rfl, h.id_lt (mem_of_lookup hv)⟩
    · intro e he
      simp only [DAG.extend, List.mem_append, List.mem_singleton] at he
      rcases he with he | rfl
      · exact h.estep e he
      · exact hs

theorem extend_values (d : DAG) (f dep : String) :
    (d.extend f dep).values = d.values ++ [dep] := by
  simp [DAG.extend, DAG.values]

theorem lookup_mono {V V2 : List (VertexID × String)} (hp : V <+: V2) {k : VertexID}
    {v : String} (h : V.lookup k = some v) : V2.lookup k = some v := by
  obtain ⟨t, rfl⟩ := hp
  rw [List.lookup_append, h]; rfl

theorem values_mono {d d2 : DAG} (hp : d.vertexIds <+: d2.vertexIds) {x : String}
    (h : x ∈ d.values) : x ∈ d2.values := by
  obtain ⟨t, ht⟩ := hp
  unfold DAG.values at h ⊢
  rw [← ht, List.map_append]
  exact List.mem_append_left _ h

theorem Closed.of_grows {d d2 : DAG} (hp : d.vertexIds <+: d2.vertexIds) {x : String}
    (h : Closed list d x) : Closed list d2 x := by
  obtain ⟨ds, h1, h2⟩ := h
  exact ⟨ds, h1, fun y hy => values_mono hp (h2 y hy)⟩

theorem extend_grows (d : DAG) (f dep : String) : d.vertexIds <+: (d.extend f dep).vertexIds :=
  ⟨_, rfl⟩

theorem queries_append (t1 t2 : List Event) : queries (t1 ++ t2) = queries t1 ++ queries t2 := by
  simp [queries, List.filterMap_append]

/-- The loop of `deps` on a dependency that is already a vertex. -/
theorem depsLoop_dup {stat : String → Bool}
    {recur : String → VertexID → DAG → Option (Option Err × DAG × List Event)}
    {vertex : VertexID} {dep : String} {rest : List String} (hd : dep ∈ d.values) :
    depsLoop stat recur vertex (dep :: rest) d =
      (depsLoop stat recur vertex rest d).map (after [.addVertex dep false]) := by
  rw [depsLoop, AddVertex_dup hd]

/-- The loop of `deps` on a dependency that is not yet a vertex. -/
theorem depsLoop_new (h : Inv list root d) {stat : String → Bool}
    {recur : String → VertexID → DAG → Option (Option Err × DAG × List Event)}
    {vertex : VertexID} {f dep : String} {rest : List String}
    (hv : d.vertexIds.lookup vertex = some f) (hd : dep ∉ d.values) :
    depsLoop stat recur vertex (dep :: rest) d =
      if stat dep then
        match recur dep d.vertexIds.length (d.extend f dep) with
        | none => none
        | some (some e, d3, t3) =>
          some (some e, d3, [.addVertex dep true, .addEdge vertex d.vertexIds.length true,
            .stat dep] ++ t3)
        | some (none, d3, t3) =>
          (depsLoop stat recur vertex rest d3).map
            (after ([.addVertex dep true, .addEdge vertex d.vertexIds.length true,
              .stat dep] ++ t3))
      else some (some (.call (.stat dep)), d.extend f dep,
        [.addVertex dep true, .addEdge vertex d.vertexIds.length true, .stat dep]) := by
  rw [depsLoop, AddVertex_new h hd]
  simp only [AddEdge_new h hv hd]

theorem mem_extend_values {f dep x : String} :
    x ∈ (d.extend f dep).values ↔ x ∈ d.values ∨ x = dep := by
  simp [extend_values]

theorem lookup_extend_new (h : Inv list root d) (f dep : String) :
    (d.extend f dep).vertexIds.lookup d.vertexIds.length = some dep := by
  show (d.vertexIds ++ [(d.vertexIds.length, dep)]).lookup d.vertexIds.length = some dep
  rw [List.lookup_append, h.lookup_fresh]; simp

/-- The loop of `deps` keeps its promises when the recursive call does. -/
theorem depsLoop_post {stat : String → Bool}
    {recur : String → VertexID → DAG → Option (Option Err × DAG × List Event)}
    {f : String} {vertex : VertexID}
    (hrec : ∀ dep v d r, Inv list root d → d.vertexIds.lookup v = some dep →
      recur dep v d = some r → Post list stat root d dep r) :
    ∀ (rest : List String) (d : DAG) (r : Option Err × DAG × List Event),
      Inv list root d → d.vertexIds.lookup vertex = some f →
      (∀ y ∈ rest, listStep list f y) →
      depsLoop stat recur vertex rest d = some r → LoopPost list stat root d rest r := by
  intro rest
  induction rest with
  | nil =>
    intro d r hinv _ _ hr
    simp only [depsLoop, Option.some.injEq] at hr
    subst hr
    exact ⟨hinv, List.prefix_refl _, fun _ => ⟨by simp, fun x hx hnx => absurd hx hnx⟩,
      by simp [queries], by simp [queries], by simp⟩
  | cons dep rest ih =>
    intro d r hinv hv hstep hr
    have hstep2 : ∀ y ∈ rest, listStep list f y :=
      fun y hy => hstep y (List.mem_cons_of_mem _ hy)
    by_cases hd : dep ∈ d.values
    · rw [depsLoop_dup hd] at hr
      obtain ⟨r2, hr2, rfl⟩ := Option.map_eq_some'.1 hr
      have P := ih d r2 hinv hv hstep2 hr2
      refine ⟨P.inv, P.grows, ?_, P.fresh, P.once, ?_⟩
      · intro he
        obtain ⟨h1, h2⟩ := P.closed he
        refine ⟨?_, h2⟩
        intro y hy
        rcases List.mem_cons.1 hy with rfl | hy
        · exact values_mono P.grows hd
        · exact h1 y hy
      · intro ev hev
        rcases List.mem_cons.1 hev with rfl | hev
        · rfl
        · exact P.calls ev hev
    · rw [depsLoop_new hinv hv hd] at hr
      have hinv2 := hinv.extend hv hd (hstep dep (List.mem_cons_self _ _))
      have hv2 := lookup_extend_new hinv f dep
      have hpre := extend_grows d f dep
      by_cases hs : stat dep = true
      · rw [if_pos hs] at hr
        cases hrc : recur dep d.vertexIds.length (d.extend f dep) with
        | none => rw [hrc] at hr; cases hr
        | some r3 =>
          obtain ⟨e3, d3, t3⟩ := r3
          have P3 := hrec _ _ _ _ hinv2 hv2 hrc
          rw [hrc] at hr
          have hg : d.vertexIds <+: d3.vertexIds := hpre.trans P3.grows
          have hf3 : ∀ q ∈ queries t3, q ∈ d3.values ∧ q ∉ d.values := by
            intro q hq
            rcases P3.fresh q hq with rfl | ⟨h1, h2⟩
            · exact ⟨values_mono P3.grows (mem_extend_values.2 (Or.inr rfl)), hd⟩
            · exact ⟨h1, fun hx => h2 (mem_extend_values.2 (Or.inl hx))⟩
          cases e3 with
          | some e =>
            simp only [Option.some.injEq] at hr
            subst hr
            refine ⟨P3.inv, hg, (fun h => by cases h), hf3, P3.once, ?_⟩
            intro ev hev
            simp only [List.cons_append, List.nil_append, List.mem_cons] at hev
            rcases hev with rfl | rfl | rfl | hev
            · rfl
            · rfl
            · rfl
            · exact P3.calls ev hev
          | none =>
            simp only at hr
            obtain ⟨r4, hr4, rfl⟩ := Option.map_eq_some'.1 hr
            have P := ih d3 r4 P3.inv (lookup_mono hg hv) hstep2 hr4
            obtain ⟨hc3, hn3⟩ := P3.closed rfl
            refine ⟨P.inv, hg.trans P.grows, ?_, ?_, ?_, ?_⟩
            · intro he
              obtain ⟨h1, h2⟩ := P.closed he
              refine ⟨?_, ?_⟩
              · intro y hy
                rcases List.mem_cons.1 hy with rfl | hy
                · exact values_mono (P3.grows.trans P.grows)
                    (mem_extend_values.2 (Or.inr rfl))
                · exact h1 y hy
              · intro x hx hnx
                by_cases hx3 : x ∈ d3.values
                · by_cases hxd : x = dep
                  · subst hxd
                    exact ⟨hc3.of_grows P.grows, hs⟩
                  · have := hn3 x hx3 (fun h => by
                      rcases mem_extend_values.1 h with h | h
                      · exact hnx h
                      · exact hxd h)
                    exact ⟨this.1.of_grows P.grows, this.2⟩
                · exact h2 x hx hx3
            · intro q hq
              change q ∈ queries (_ :: _ :: _ :: (t3 ++ r4.2.2)) at hq
              change q ∈ queries (t3 ++ r4.2.2) at hq
              rw [queries_append] at hq
              rcases List.mem_append.1 hq with hq | hq
              · exact ⟨values_mono P.grows (hf3 q hq).1, (hf3 q hq).2⟩
              · exact ⟨(P.fresh q hq).1, fun h => (P.fresh q hq).2 (values_mono hg h)⟩
            · change (queries (_ :: _ :: _ :: (t3 ++ r4.2.2))).Nodup
              change (queries (t3 ++ r4.2.2)).Nodup
              rw [queries_append]
              refine List.Nodup.append P3.once P.once ?_
              intro q h1 h2
              exact (P.fresh q h2).2 (hf3 q h1).1
            · intro ev hev
              change ev ∈ _ :: _ :: _ :: (t3 ++ r4.2.2) at hev
              simp only [List.mem_cons, List.mem_append] at hev
              rcases hev with rfl | rfl | rfl | hev | hev
              · rfl
              · rfl
              · rfl
              · exact P3.calls ev hev
              · exact P.calls ev hev
      · rw [if_neg hs] at hr
        simp only [Option.some.injEq] at hr
        subst hr
        refine ⟨hinv2, hpre, (fun h => by cases h), by simp [queries], by simp [queries], ?_⟩
        intro ev hev
        simp only [List.mem_cons, List.mem_singleton, List.not_mem_nil, or_false] at hev
        rcases hev with rfl | rfl | rfl <;> rfl

/-- What `deps` guarantees, for every depth bound at which it returns. -/
theorem deps_post {stat : String → Bool} :
    ∀ (fuel : Nat) (f : String) (vertex : VertexID) (d : DAG)
      (r : Option Err × DAG × List Event),
      Inv list root d → d.vertexIds.lookup vertex = some f →
      deps list stat fuel f vertex d = some r → Post list stat root d f r := by
  intro fuel
  induction fuel with
  | zero => intro f vertex d r _ _ hr; cases hr
  | succ fuel ih =>
    intro f vertex d r hinv hv hr
    rw [deps] at hr
    cases hl : list f with
    | none =>
      rw [hl] at hr
      simp only [Option.some.injEq] at hr
      subst hr
      exact ⟨hinv, List.prefix_refl _, (fun h => by cases h), by simp [queries],
        by simp [queries], by simp [Event.resolving]⟩
    | some ds =>
      rw [hl] at hr
      simp only at hr
      obtain ⟨r2, hr2, rfl⟩ := Option.map_eq_some'.1 hr
      have P := depsLoop_post (fun dep v d r => ih dep v d r) ds d r2 hinv hv
        (fun y hy => ⟨ds, hl, hy⟩) hr2
      refine ⟨P.inv, P.grows, ?_, ?_, ?_, ?_⟩
      · intro he
        obtain ⟨h1, h2⟩ := P.closed he
        exact ⟨⟨ds, hl, h1⟩, h2⟩
      · intro q hq
        change q ∈ f :: queries r2.2.2 at hq
        rcases List.mem_cons.1 hq with rfl | hq
        · exact Or.inl rfl
        · exact Or.inr (P.fresh q hq)
      · change (f :: queries r2.2.2).Nodup
        refine List.nodup_cons.2 ⟨?_, P.once⟩
        intro hq
        exact (P.fresh f hq).2 (List.mem_map.2 ⟨_, mem_of_lookup hv, rfl⟩)
      · intro ev hev
        rcases List.mem_cons.1 hev with rfl | hev
        · rfl
        · exact P.calls ev hev

theorem Points.nil (d : DAG) : Points list root d d [] :=
  ⟨rfl, fun pre src dst ok post h => by simp at h, fun pre src dst ok post h => by simp at h⟩

theorem missing_mono (univ : List String) {d d2 : DAG} (hp : d.vertexIds <+: d2.vertexIds) :
    missing univ d2 ≤ missing univ d := by
  unfold missing
  apply Finset.card_le_card
  intro x hx
  simp only [Finset.mem_filter, List.mem_toFinset] at hx ⊢
  exact ⟨hx.1, fun h => hx.2 (values_mono hp h)⟩

theorem missing_extend (univ : List String) {f dep : String} (hu : dep ∈ univ)
    (hd : dep ∉ d.values) : missing univ (d.extend f dep) < missing univ d := by
  unfold missing
  apply Finset.card_lt_card
  rw [Finset.ssubset_iff_of_subset]
  · refine ⟨dep, ?_, ?_⟩
    · simp only [Finset.mem_filter, List.mem_toFinset]
      exact ⟨hu, hd⟩
    · simp only [Finset.mem_filter, List.mem_toFinset, not_and, not_not]
      intro _
      exact mem_extend_values.2 (Or.inr rfl)
  · intro x hx
    simp only [Finset.mem_filter, List.mem_toFinset] at hx ⊢
    exact ⟨hx.1, fun h => hx.2 (mem_extend_values.2 (Or.inl h))⟩

/-- The loop of `deps` returns when the recursive call does. -/
theorem depsLoop_returns {stat : String → Bool} {univ : List String} {fuel : Nat}
    {recur : String → VertexID → DAG → Option (Option Err × DAG × List Event)}
    {f : String} {vertex : VertexID}
    (hrec : ∀ dep v d r, Inv list root d → d.vertexIds.lookup v = some dep →
      recur dep v d = some r → Post list stat root d dep r)
    (hret : ∀ dep v d, Inv list root d → d.vertexIds.lookup v = some dep → dep ∈ univ →
      missing univ d < fuel → (recur dep v d).isSome = true) :
    ∀ (rest : List String) (d : DAG),
      Inv list root d → d.vertexIds.lookup vertex = some f →
      (∀ y ∈ rest, listStep list f y ∧ y ∈ univ) → missing univ d ≤ fuel →
      (depsLoop stat recur vertex rest d).isSome = true := by
  intro rest
  induction rest with
  | nil => intro d _ _ _ _; rfl
  | cons dep rest ih =>
    intro d hinv hv hstep hm
    have hstep2 : ∀ y ∈ rest, listStep list f y ∧ y ∈ univ :=
      fun y hy => hstep y (List.mem_cons_of_mem _ hy)
    obtain ⟨hsd, hud⟩ := hstep dep (List.mem_cons_self _ _)
    by_cases hd : dep ∈ d.values
    · rw [depsLoop_dup hd, Option.isSome_map']
      exact ih d hinv hv hstep2 hm
    · rw [depsLoop_new hinv hv hd]
      have hinv2 := hinv.extend hv hd hsd
      have hv2 := lookup_extend_new hinv f dep
      have hlt : missing univ (d.extend f dep) < fuel :=
        Nat.lt_of_lt_of_le (missing_extend univ hud hd) hm
      by_cases hs : stat dep = true
      · rw [if_pos hs]
        have h3 := hret dep _ _ hinv2 hv2 hud hlt
        cases hrc : recur dep d.vertexIds.length (d.extend f dep) with
        | none => rw [hrc] at h3; cases h3
        | some r3 =>
          obtain ⟨e3, d3, t3⟩ := r3
          have P3 := hrec _ _ _ _ hinv2 hv2 hrc
          cases e3 with
          | some e => rfl
          | none =>
            simp only
            rw [Option.isSome_map']
            have hg : d.vertexIds <+: d3.vertexIds := (extend_grows d f dep).trans P3.grows
            exact ih d3 P3.inv (lookup_mono hg hv) hstep2
              (Nat.le_trans (missing_mono univ hg) hm)
      · rw [if_neg hs]; rfl

/-- With a depth bound above the number of paths of `univ` that are not yet
vertices, `deps` returns, when `univ` holds `f` and is closed under the
steps of the lister. -/
theorem deps_returns {stat : String → Bool} {univ : List String}
    (hcl : ∀ p ∈ univ, ∀ y, listStep list p y → y ∈ univ) :
    ∀ (fuel : Nat) (f : String) (vertex : VertexID) (d : DAG),
      Inv list root d → d.vertexIds.lookup vertex = some f → f ∈ univ →
      missing univ d < fuel → (deps list stat fuel f vertex d).isSome = true := by
  intro fuel
  induction fuel with
  | zero => intro f vertex d _ _ _ hm; cases hm
  | succ fuel ih =>
    intro f vertex d hinv hv hu hm
    rw [deps]
    cases hl : list f with
    | none => rfl
    | some ds =>
      simp only
      rw [Option.isSome_map']
      exact depsLoop_returns (fun dep v d r => deps_post fuel dep v d r)
        (fun dep v d => ih dep v d) ds d hinv hv
        (fun y hy => ⟨⟨ds, hl, hy⟩, hcl f hu y ⟨ds, hl, hy⟩⟩) (Nat.lt_succ_iff.1 hm)

theorem mem_children {d : DAG} {v x : String} : x ∈ d.children v ↔ (v, x) ∈ d.edges := by
  unfold DAG.children
  simp only [List.mem_map, List.mem_filter, decide_eq_true_eq]
  constructor
  · rintro ⟨e, ⟨he, rfl⟩, rfl⟩
    exact he
  · intro h
    exact ⟨(v, x), ⟨h, rfl⟩, rfl⟩

theorem mem_descendantsAux_succ {d : DAG} {n : Nat} {v x : String} :
    x ∈ d.descendantsAux (n + 1) v ↔
      ∃ c, (v, c) ∈ d.edges ∧ (x = c ∨ x ∈ d.descendantsAux n c) := by
  simp only [DAG.descendantsAux, List.mem_flatMap, List.mem_cons, mem_children]

theorem descendantsAux_sound {d : DAG} :
    ∀ (n : Nat) (v x : String), x ∈ d.descendantsAux n v →
      Relation.TransGen (fun a b => (a, b) ∈ d.edges) v x := by
  intro n
  induction n with
  | zero => intro v x h; simp [DAG.descendantsAux] at h
  | succ n ih =>
    intro v x h
    obtain ⟨c, hc, h2⟩ := mem_descendantsAux_succ.1 h
    rcases h2 with rfl | h2
    · exact Relation.TransGen.single hc
    · exact Relation.TransGen.head hc (ih c x h2)

theorem descendantsAux_mono {d : DAG} :
    ∀ (n m : Nat) (v x : String), n ≤ m → x ∈ d.descendantsAux n v →
      x ∈ d.descendantsAux m v := by
  intro n
  induction n with
  | zero => intro m v x _ h; simp [DAG.descendantsAux] at h
  | succ n ih =>
    intro m v x hnm h
    obtain ⟨k, rfl⟩ : ∃ k, m = k + 1 := ⟨m - 1, by omega⟩
    obtain ⟨c, hc, h2⟩ := mem_descendantsAux_succ.1 h
    refine mem_descendantsAux_succ.2 ⟨c, hc, ?_⟩
    rcases h2 with rfl | h2
    · exact Or.inl rfl
    · exact Or.inr (ih k c x (by omega) h2)

theorem descendantsAux_snoc {d : DAG} :
    ∀ (n : Nat) (v a x : String), a ∈ d.descendantsAux n v → (a, x) ∈ d.edges →
      x ∈ d.descendantsAux (n + 1) v := by
  intro n
  induction n with
  | zero => intro v a x h; simp [DAG.descendantsAux] at h
  | succ n ih =>
    intro v a x h hax
    obtain ⟨c, hc, h2⟩ := mem_descendantsAux_succ.1 h
    refine mem_descendantsAux_succ.2 ⟨c, hc, Or.inr ?_⟩
    rcases h2 with rfl | h2
    · exact mem_descendantsAux_succ.2 ⟨x, hax, Or.inl rfl⟩
    · exact ih c a x h2 hax

theorem Inv.root_mem (h : Inv list root d) : (0, root) ∈ d.vertexIds := by
  have := h.root
  cases hV : d.vertexIds with
  | nil => rw [hV] at this; cases this
  | cons p V =>
    rw [hV] at this
    simp only [List.head?_cons, Option.some.injEq] at this
    subst this
    exact List.mem_cons_self _ _

theorem Inv.root_mem_values (h : Inv list root d) : root ∈ d.values :=
  List.mem_map.2 ⟨_, h.root_mem, rfl⟩

theorem Inv.lookup_root (h : Inv list root d) : d.vertexIds.lookup 0 = some root :=
  lookup_of_mem h.keys_nodup h.root_mem

/-- Every vertex other than the root is the target of an edge. -/
theorem Inv.has_parent (h : Inv list root d) {x : String} (hx : x ∈ d.values)
    (hne : x ≠ root) : ∃ a, (a, x) ∈ d.edges := by
  have hroot := h.root
  have htails := h.tails
  unfold DAG.values at hx htails
  cases hV : d.vertexIds with
  | nil => rw [hV] at hroot; cases hroot
  | cons p V =>
    rw [hV] at hroot hx htails
    simp only [List.head?_cons, Option.some.injEq] at hroot
    subst hroot
    simp only [List.map_cons, List.mem_cons, List.tail_cons] at hx htails
    rcases hx with hx | hx
    · exact absurd hx hne
    · rw [← htails] at hx
      obtain ⟨e, he, rfl⟩ := List.mem_map.1 hx
      exact ⟨e.1, he⟩

/-- No edge arrives at the root. -/
theorem Inv.no_edge_to_root (h : Inv list root d) {a : String} : (a, root) ∉ d.edges := by
  intro he
  obtain ⟨i, j, _, hj, hij⟩ := h.esrc _ he
  have := h.val_inj hj h.root_mem
  rw [this] at hij
  exact Nat.not_lt_zero _ hij

theorem Inv.nonroot_descendant (h : Inv list root d) :
    ∀ (j : Nat) (x : String), (j, x) ∈ d.vertexIds → j ≠ 0 →
      x ∈ d.descendantsAux j root := by
  intro j
  induction j using Nat.strong_induction_on with
  | _ j ih =>
    intro x hx hj
    have hne : x ≠ root := by
      rintro rfl
      exact hj (h.val_inj hx h.root_mem)
    obtain ⟨a, ha⟩ := h.has_parent (List.mem_map.2 ⟨_, hx, rfl⟩) hne
    obtain ⟨i, j2, hi, hj2, hij⟩ := h.esrc _ ha
    have hjj : j2 = j := h.val_inj hj2 hx
    subst hjj
    obtain ⟨k, rfl⟩ := Nat.exists_eq_succ_of_ne_zero hj
    by_cases hi0 : i = 0
    · subst hi0
      have : a = root := h.key_inj hi h.root_mem
      subst this
      exact mem_descendantsAux_succ.2 ⟨x, ha, Or.inl rfl⟩
    · have h1 := ih i hij a hi hi0
      have h2 := descendantsAux_snoc i root a x h1 ha
      exact descendantsAux_mono (i + 1) (k + 1) root x (Nat.succ_le_of_lt hij) h2

theorem Inv.edges_reach (h : Inv list root d) {x : String}
    (hx : Relation.TransGen (fun a b => (a, b) ∈ d.edges) root x) :
    x ≠ root ∧ Relation.TransGen (listStep list) root x := by
  refine ⟨?_, Relation.TransGen.mono (fun a b hab => h.estep (a, b) hab) hx⟩
  rintro rfl
  obtain ⟨b, _, hb⟩ := Relation.TransGen.tail'_iff.1 hx
  exact h.no_edge_to_root hb

theorem reach_mem_values (h : Inv list root d) (hc : ∀ x ∈ d.values, Closed list d x)
    {x : String} (hx : Relation.ReflTransGen (listStep list) root x) : x ∈ d.values := by
  induction hx with
  | refl => exact h.root_mem_values
  | tail _ hbc ih =>
    obtain ⟨ds, h1, h2⟩ := hc _ ih
    obtain ⟨ds2, h3, h4⟩ := hbc
    rw [h1] at h3
    cases h3
    exact h2 _ h4

/-- The values of `GetDescendants(root id)` in a graph built by `deps` in which
every vertex has been expanded: the paths other than the root that the steps
of the lister reach from the root. -/
theorem GetDescendants_spec (h : Inv list root d) (hc : ∀ x ∈ d.values, Closed list d x) :
    ∃ m, d.GetDescendants 0 = .ok m ∧ (m.map Prod.snd).Nodup ∧
      ∀ p, p ∈ m.map Prod.snd ↔ (p ≠ root ∧ Relation.TransGen (listStep list) root p) := by
  refine ⟨d.vertexIds.filter (fun p => p.2 ∈ d.getDescendants root), ?_, ?_, ?_⟩
  · unfold DAG.GetDescendants
    rw [h.lookup_root]
  · exact h.vals.sublist (List.Sublist.map _ (List.filter_sublist _))
  · intro p
    simp only [List.mem_map, List.mem_filter, decide_eq_true_eq, DAG.getDescendants,
      List.mem_dedup]
    constructor
    · rintro ⟨q, ⟨_, hq⟩, rfl⟩
      exact h.edges_reach (descendantsAux_sound _ _ _ hq)
    · rintro ⟨hne, hp⟩
      have hv : p ∈ d.values := reach_mem_values h hc hp.to_reflTransGen
      obtain ⟨q, hq, rfl⟩ := List.mem_map.1 hv
      obtain ⟨j, x⟩ := q
      refine ⟨(j, x), ⟨hq, ?_⟩, rfl⟩
      have hj : j ≠ 0 := by
        rintro rfl
        exact hne (h.key_inj hq h.root_mem)
      exact descendantsAux_mono j _ root x (Nat.le_of_lt (h.id_lt hq))
        (h.nonroot_descendant j x hq hj)

end InvLemmas

/-! ## Facts about the relocation stage -/

section Relocation
variable {σ : Type} {w : World σ}

theorem andThen_eq (r : Option Err × σ × List Event) (k : σ → Option Err × σ × List Event) :
    andThen r k = if r.1 = none then after r.2.2 (k r.2.1) else r := by
  obtain ⟨e, s, t⟩ := r
  cases e <;> simp [andThen]

theorem andThen_ok {r : Option Err × σ × List Event} {k : σ → Option Err × σ × List Event}
    {s2 : σ} {t : List Event} (h : andThen r k = (none, s2, t)) :
    ∃ s1 t1 t2, r = (none, s1, t1) ∧ k s1 = (none, s2, t2) ∧ t = t1 ++ t2 := by
  obtain ⟨e, s1, t1⟩ := r
  cases e with
  | some e => simp [andThen] at h
  | none =>
    simp only [andThen, after, Prod.mk.injEq] at h
    obtain ⟨h1, h2, h3⟩ := h
    refine ⟨s1, t1, (k s1).2.2, rfl, ?_, h3.symm⟩
    rw [← h1, ← h2]

theorem call_ok {r : Bool × σ} {e : Event} {s2 : σ} {t : List Event}
    (h : call r e = (none, s2, t)) : r.1 = true ∧ s2 = r.2 ∧ t = [e] := by
  simp only [call, Prod.mk.injEq] at h
  obtain ⟨h1, h2, h3⟩ := h
  refine ⟨?_, h2.symm, h3.symm⟩
  by_contra hc
  simp [hc] at h1

theorem run_append (w : World σ) (s : σ) (t1 t2 : List Event) :
    w.run s (t1 ++ t2) = w.run (w.run s t1) t2 := by
  simp [World.run, List.foldl_append]

theorem after_ok {evs : List Event} {r : Option Err × σ × List Event} {s2 : σ}
    {t : List Event} (h : after evs r = (none, s2, t)) :
    ∃ t2, r = (none, s2, t2) ∧ t = evs ++ t2 := by
  obtain ⟨e, s1, t1⟩ := r
  simp only [after, Prod.mk.injEq] at h
  obtain ⟨h1, h2, h3⟩ := h
  subst h1 h2 h3
  exact ⟨t1, rfl, rfl⟩

theorem copyFile_ok {src dst : String} {executable : Bool} {s s2 : σ} {t : List Event}
    (h : copyFile w src dst executable s = (none, s2, t)) :
    ∃ data, w.readFile s src = some data ∧
      t = .readFile src :: .writeFile dst data 0o755 ::
        (if executable then [.chmod dst 0o755] else []) ∧
      s2 = w.run s t := by
  unfold copyFile at h
  cases hr : w.readFile s src with
  | none => rw [hr] at h; simp at h
  | some data =>
    rw [hr] at h
    simp only at h
    refine ⟨data, rfl, ?_⟩
    obtain ⟨t0, h0, rfl⟩ := after_ok h
    obtain ⟨s1, t1, t2, ha, hb, rfl⟩ := andThen_ok h0
    obtain ⟨_, rfl, rfl⟩ := call_ok ha
    cases executable with
    | false =>
      simp only [Bool.false_eq_true, if_false, Prod.mk.injEq, true_and] at hb
      obtain ⟨rfl, rfl⟩ := hb
      simp [World.run, World.exec]
    | true =>
      simp only [if_true] at hb
      obtain ⟨_, rfl, rfl⟩ := call_ok hb
      simp [World.run, World.exec]

theorem libsLoop_ok {libDir : String} :
    ∀ (m : List (VertexID × String)) (s s2 : σ) (t : List Event),
      libsLoop w libDir m s = (none, s2, t) → LibsTrace w libDir s m t ∧ s2 = w.run s t := by
  intro m
  induction m with
  | nil =>
    intro s s2 t h
    simp only [libsLoop, Prod.mk.injEq, true_and] at h
    obtain ⟨h1, h2⟩ := h
    subst h1 h2
    exact ⟨rfl, rfl⟩
  | cons p m ih =>
    intro s s2 t h
    obtain ⟨i, libs⟩ := p
    rw [libsLoop] at h
    obtain ⟨s1, t1, t2, ha, hb, hc⟩ := andThen_ok h
    obtain ⟨data, hd1, hd2, hd3⟩ := copyFile_ok ha
    obtain ⟨s3, t3, t4, ha2, hb2, hc2⟩ := andThen_ok hb
    obtain ⟨_, hs3, ht3⟩ := call_ok ha2
    obtain ⟨h5, h6⟩ := ih s3 s2 t4 hb2
    have hrun : w.run s (libEvents libDir libs data) = s3 := by
      rw [hs3, hd3, hd2]
      simp [libEvents, World.run, World.exec]
    have ht : t = libEvents libDir libs data ++ t4 := by
      rw [hc, hc2, hd2, ht3]
      simp [libEvents]
    refine ⟨⟨data, t4, hd1, ht, ?_⟩, ?_⟩
    · rw [hrun]; exact h5
    · rw [ht, run_append, hrun]; exact h6

theorem removeLoop_ok :
    ∀ (files : List String) (s s2 : σ) (t : List Event),
      removeLoop w files s = (none, s2, t) →
        (∀ ev ∈ t, ev.layout = true) ∧ s2 = w.run s t := by
  intro files
  induction files with
  | nil =>
    intro s s2 t h
    simp only [removeLoop, Prod.mk.injEq, true_and] at h
    obtain ⟨rfl, rfl⟩ := h
    exact ⟨by simp, rfl⟩
  | cons name files ih =>
    intro s s2 t h
    rw [removeLoop] at h
    obtain ⟨s1, t1, t2, ha, hb, rfl⟩ := andThen_ok h
    obtain ⟨_, rfl, rfl⟩ := call_ok ha
    obtain ⟨h1, h2⟩ := ih _ _ _ hb
    refine ⟨?_, ?_⟩
    · intro ev hev
      rcases List.mem_append.1 hev with hev | hev
      · rw [List.mem_singleton.1 hev]; rfl
      · exact h1 ev hev
    · rw [run_append, h2]; rfl

theorem cleanDirectory_ok {p : String} {s s2 : σ} {t : List Event}
    (h : cleanDirectory w p s = (none, s2, t)) :
    (∀ ev ∈ t, ev.layout = true) ∧ s2 = w.run s t := by
  unfold cleanDirectory at h
  cases hr : w.readDir s p with
  | none => rw [hr] at h; simp at h
  | some files =>
    rw [hr] at h
    simp only at h
    obtain ⟨t2, h2, rfl⟩ := after_ok h
    obtain ⟨h3, h4⟩ := removeLoop_ok files s s2 t2 h2
    refine ⟨?_, ?_⟩
    · intro ev hev
      rcases List.mem_append.1 hev with hev | hev
      · rw [List.mem_singleton.1 hev]; rfl
      · exact h3 ev hev
    · rw [run_append, h4]; rfl

theorem makeDirectories_ok {p : String} {s s2 : σ} {t : List Event}
    (h : makeDirectories w p s = (none, s2, t)) :
    t = [.mkdirAll p 0o755] ∧ s2 = w.run s t := by
  obtain ⟨_, rfl, rfl⟩ := call_ok h
  exact ⟨rfl, rfl⟩

/-- The trace of a relocation that went through: the layout of the output
directory, then the copy and the patch of the binary, then the copy and the
patch of each library. -/
theorem relocate_ok {flags : Flags} {bin : String} {m : List (VertexID × String)}
    {s s2 : σ} {t : List Event} (h : relocate w flags bin m s = (none, s2, t)) :
    ∃ t1 data t2, t = t1 ++ (binEvents flags bin data ++ t2) ∧
      (∀ ev ∈ t1, ev.layout = true) ∧
      w.readFile (w.run s t1) bin = some data ∧
      LibsTrace w (libDir flags) (w.run s (t1 ++ binEvents flags bin data)) m t2 ∧
      s2 = w.run s t := by
  unfold relocate at h
  obtain ⟨sa, ta, ta2, h1, k1, rfl⟩ := andThen_ok h
  obtain ⟨rfl, rfl⟩ := makeDirectories_ok h1
  obtain ⟨sb, tb, tb2, h2, k2, rfl⟩ := andThen_ok k1
  have hclean : (∀ ev ∈ tb, ev.layout = true) ∧
      sb = w.run (w.run s [Event.mkdirAll flags.out 0o755]) tb := by
    cases hcl : flags.clean with
    | false =>
      rw [hcl] at h2
      simp only [Bool.false_eq_true, if_false, Prod.mk.injEq, true_and] at h2
      obtain ⟨rfl, rfl⟩ := h2
      exact ⟨by simp, rfl⟩
    | true =>
      rw [hcl] at h2
      simp only [if_true] at h2
      exact cleanDirectory_ok h2
  obtain ⟨hl, rfl⟩ := hclean
  obtain ⟨sc, tc, tc2, h3, k3, rfl⟩ := andThen_ok k2
  obtain ⟨rfl, rfl⟩ := makeDirectories_ok h3
  obtain ⟨sd, td, td2, h4, k4, rfl⟩ := andThen_ok k3
  obtain ⟨rfl, rfl⟩ := makeDirectories_ok h4
  obtain ⟨se, te, te2, h5, k5, rfl⟩ := andThen_ok k4
  obtain ⟨data, hd1, rfl, rfl⟩ := copyFile_ok h5
  obtain ⟨sf, tf, tf2, h6, k6, rfl⟩ := andThen_ok k5
  obtain ⟨rfl, rfl⟩ := makeDirectories_ok h6
  obtain ⟨sg, tg, tg2, h7, k7, rfl⟩ := andThen_ok k6
  obtain ⟨_, rfl, rfl⟩ := call_ok h7
  obtain ⟨h8, rfl⟩ := libsLoop_ok m _ s2 tg2 k7
  refine ⟨[Event.mkdirAll flags.out 0o755] ++ tb ++
    [Event.mkdirAll (outDir flags) 0o755, Event.mkdirAll (Join (outDir flags) "bin") 0o755],
    data, tg2, ?_, ?_, ?_, ?_, ?_⟩
  · simp [binEvents, binOut, libDir, outDir]
  · intro ev hev
    simp only [List.mem_append, List.mem_singleton, List.mem_cons, List.not_mem_nil,
      or_false] at hev
    rcases hev with (rfl | hev) | rfl | rfl
    · rfl
    · exact hl ev hev
    · rfl
    · rfl
  · simpa [outDir, World.run] using hd1
  · simpa [binEvents, binOut, libDir, outDir, World.run, World.exec] using h8
  · simp [binEvents, binOut, libDir, outDir, World.run, World.exec]

theorem andThen_events (P : Event → Prop) {r : Option Err × σ × List Event}
    {k : σ → Option Err × σ × List Event} (hr : ∀ ev ∈ r.2.2, P ev)
    (hk : ∀ s, ∀ ev ∈ (k s).2.2, P ev) : ∀ ev ∈ (andThen r k).2.2, P ev := by
  rw [andThen_eq]
  split
  · intro ev hev
    rcases List.mem_append.1 hev with hev | hev
    · exact hr ev hev
    · exact hk _ ev hev
  · exact hr

theorem call_events (P : Event → Prop) (r : Bool × σ) {e : Event} (he : P e) :
    ∀ ev ∈ (call r e).2.2, P ev := by
  intro ev hev
  rw [List.mem_singleton.1 hev]
  exact he

theorem copyFile_copying (src dst : String) (executable : Bool) (s : σ) :
    ∀ ev ∈ (copyFile w src dst executable s).2.2, ev.copying = true := by
  unfold copyFile
  cases w.readFile s src with
  | none => intro ev hev; rw [List.mem_singleton.1 hev]; rfl
  | some data =>
    intro ev hev
    rcases List.mem_append.1 hev with hev | hev
    · rw [List.mem_singleton.1 hev]; rfl
    · refine andThen_events (fun ev => ev.copying = true) (call_events _ _ (by rfl)) ?_ ev hev
      intro s2
      cases executable with
      | false => intro ev hev; cases hev
      | true => exact call_events _ _ (by rfl)

theorem copyFile_relocating (src dst : String) (executable : Bool) (s : σ) :
    ∀ ev ∈ (copyFile w src dst executable s).2.2, ev.relocating = true := by
  intro ev hev
  have := copyFile_copying src dst executable s ev hev
  cases ev <;> first | rfl | cases this

theorem removeLoop_relocating :
    ∀ (files : List String) (s : σ), ∀ ev ∈ (removeLoop w files s).2.2,
      ev.relocating = true := by
  intro files
  induction files with
  | nil => intro s ev hev; cases hev
  | cons name files ih =>
    intro s
    rw [removeLoop]
    exact andThen_events _ (call_events _ _ (by rfl)) ih

theorem cleanDirectory_relocating (p : String) (s : σ) :
    ∀ ev ∈ (cleanDirectory w p s).2.2, ev.relocating = true := by
  unfold cleanDirectory
  cases w.readDir s p with
  | none => intro ev hev; rw [List.mem_singleton.1 hev]; rfl
  | some files =>
    intro ev hev
    rcases List.mem_append.1 hev with hev | hev
    · rw [List.mem_singleton.1 hev]; rfl
    · exact removeLoop_relocating files s ev hev

theorem libsLoop_relocating {libDir : String} :
    ∀ (m : List (VertexID × String)) (s : σ), ∀ ev ∈ (libsLoop w libDir m s).2.2,
      ev.relocating = true := by
  intro m
  induction m with
  | nil => intro s ev hev; cases hev
  | cons p m ih =>
    intro s
    obtain ⟨i, libs⟩ := p
    rw [libsLoop]
    refine andThen_events _ (copyFile_relocating _ _ _ _) ?_
    intro s2
    exact andThen_events _ (call_events _ _ (by rfl)) ih

/-- Whatever its outcome, the relocation stage makes only calls of the
relocation stage. -/
theorem relocate_relocating (flags : Flags) (bin : String) (m : List (VertexID × String))
    (s : σ) : ∀ ev ∈ (relocate w flags bin m s).2.2, ev.relocating = true := by
  unfold relocate
  have hmk : ∀ (p : String) (s : σ), ∀ ev ∈ (makeDirectories w p s).2.2,
      ev.relocating = true := fun p s => call_events _ _ (by rfl)
  refine andThen_events _ (hmk _ _) fun s => ?_
  refine andThen_events _ ?_ fun s => ?_
  · cases flags.clean with
    | false => intro ev hev; cases hev
    | true => exact cleanDirectory_relocating _ _
  refine andThen_events _ (hmk _ _) fun s => ?_
  refine andThen_events _ (hmk _ _) fun s => ?_
  refine andThen_events _ (copyFile_relocating _ _ _ _) fun s => ?_
  refine andThen_events _ (hmk _ _) fun s => ?_
  exact andThen_events _ (call_events _ _ (by rfl)) (libsLoop_relocating _)

theorem writeTargets_append (t1 t2 : List Event) :
    writeTargets (t1 ++ t2) = writeTargets t1 ++ writeTargets t2 := by
  simp [writeTargets, List.filterMap_append]

theorem PatchesFollow.of_no_patch {W : List String} {t : List Event}
    (h : ∀ ev ∈ t, ev.patching = false) : PatchesFollow W t := by
  intro pre post rpath target ht
  have := h (.patchelf rpath target) (by rw [ht]; simp)
  cases this

theorem PatchesFollow.append {W : List String} {t1 t2 : List Event}
    (h1 : PatchesFollow W t1) (h2 : PatchesFollow (W ++ writeTargets t1) t2) :
    PatchesFollow W (t1 ++ t2) := by
  intro pre post rpath target ht
  rcases List.append_eq_append_iff.1 ht with ⟨a, rfl, ha⟩ | ⟨c, rfl, hc⟩
  · rcases h2 a post rpath target ha with h | h
    · rcases List.mem_append.1 h with h | h
      · exact Or.inl h
      · exact Or.inr (by rw [writeTargets_append]; exact List.mem_append_left _ h)
    · exact Or.inr (by rw [writeTargets_append]; exact List.mem_append_right _ h)
  · cases c with
    | nil =>
      simp only [List.nil_append] at hc
      rcases h2 [] post rpath target hc.symm with h | h
      · rcases List.mem_append.1 h with h | h
        · exact Or.inl h
        · exact Or.inr (by simpa using h)
      · cases h
    | cons e c =>
      simp only [List.cons_append, List.cons.injEq] at hc
      obtain ⟨rfl, rfl⟩ := hc
      exact h1 pre c rpath target rfl

theorem PatchesFollow.weaken {W W2 : List String} {t : List Event} (hW : ∀ x ∈ W, x ∈ W2)
    (h : PatchesFollow W t) : PatchesFollow W2 t := by
  intro pre post rpath target ht
  rcases h pre post rpath target ht with h | h
  · exact Or.inl (hW _ h)
  · exact Or.inr h

theorem andThen_follow {W : List String} {r : Option Err × σ × List Event}
    {k : σ → Option Err × σ × List Event} (hr : PatchesFollow W r.2.2)
    (hk : r.1 = none → PatchesFollow (W ++ writeTargets r.2.2) (k r.2.1).2.2) :
    PatchesFollow W (andThen r k).2.2 := by
  rw [andThen_eq]
  split
  · next h => exact hr.append (hk h)
  · exact hr

theorem copying_not_patching {t : List Event} (h : ∀ ev ∈ t, ev.copying = true) :
    ∀ ev ∈ t, ev.patching = false := by
  intro ev hev
  have := h ev hev
  cases ev <;> first | rfl | cases this

theorem copyFile_writes {src dst : String} {executable : Bool} {s : σ}
    (h : (copyFile w src dst executable s).1 = none) :
    dst ∈ writeTargets (copyFile w src dst executable s).2.2 := by
  have hk : copyFile w src dst executable s =
      (none, (copyFile w src dst executable s).2.1, (copyFile w src dst executable s).2.2) := by
    rw [← h]
  obtain ⟨data, _, ht, _⟩ := copyFile_ok hk
  rw [ht]
  simp [writeTargets]

theorem patch_follow {W : List String} (r : Bool × σ) {rpath target : String}
    (h : target ∈ W) : PatchesFollow W (call r (.patchelf rpath target)).2.2 := by
  intro pre post rp tg ht
  cases pre with
  | nil =>
    simp only [call, List.nil_append, List.cons.injEq, Event.patchelf.injEq] at ht
    obtain ⟨⟨_, rfl⟩, _⟩ := ht
    exact Or.inl h
  | cons e pre =>
    simp only [call, List.cons_append, List.cons.injEq] at ht
    have := ht.2
    simp at this

theorem libsLoop_follow {libDir : String} :
    ∀ (m : List (VertexID × String)) (s : σ) (W : List String),
      PatchesFollow W (libsLoop w libDir m s).2.2 := by
  intro m
  induction m with
  | nil => intro s W; exact PatchesFollow.of_no_patch (fun ev hev => by cases hev)
  | cons p m ih =>
    intro s W
    obtain ⟨i, libs⟩ := p
    rw [libsLoop]
    refine andThen_follow
      (PatchesFollow.of_no_patch (copying_not_patching (copyFile_copying _ _ _ _))) ?_
    intro hc
    refine andThen_follow (patch_follow _ ?_) (fun _ => ih _ _)
    exact List.mem_append_right _ (copyFile_writes hc)

theorem makeDirectories_follow {W : List String} (p : String) (s : σ) :
    PatchesFollow W (makeDirectories w p s).2.2 :=
  PatchesFollow.of_no_patch (call_events _ _ (by rfl))

theorem relocating_layout_follow {W : List String} {t : List Event}
    (h : ∀ ev ∈ t, ev.layout = true) : PatchesFollow W t := by
  refine PatchesFollow.of_no_patch ?_
  intro ev hev
  have := h ev hev
  cases ev <;> first | rfl | cases this

theorem removeLoop_layout :
    ∀ (files : List String) (s : σ), ∀ ev ∈ (removeLoop w files s).2.2,
      ev.layout = true := by
  intro files
  induction files with
  | nil => intro s ev hev; cases hev
  | cons name files ih =>
    intro s
    rw [removeLoop]
    exact andThen_events _ (call_events _ _ (by rfl)) ih

theorem cleanDirectory_layout (p : String) (s : σ) :
    ∀ ev ∈ (cleanDirectory w p s).2.2, ev.layout = true := by
  unfold cleanDirectory
  cases w.readDir s p with
  | none => intro ev hev; rw [List.mem_singleton.1 hev]; rfl
  | some files =>
    intro ev hev
    rcases List.mem_append.1 hev with hev | hev
    · rw [List.mem_singleton.1 hev]; rfl
    · exact removeLoop_layout files s ev hev

/-- Whatever its outcome, the relocation stage patches only what it has
written before. -/
theorem relocate_follow (flags : Flags) (bin : String) (m : List (VertexID × String))
    (s : σ) : PatchesFollow [] (relocate w flags bin m s).2.2 := by
  unfold relocate
  refine andThen_follow (makeDirectories_follow _ _) fun _ => ?_
  refine andThen_follow ?_ fun _ => ?_
  · cases flags.clean with
    | false => exact PatchesFollow.of_no_patch (fun ev hev => by cases hev)
    | true => exact relocating_layout_follow (cleanDirectory_layout _ _)
  refine andThen_follow (makeDirectories_follow _ _) fun _ => ?_
  refine andThen_follow (makeDirectories_follow _ _) fun _ => ?_
  refine andThen_follow
    (PatchesFollow.of_no_patch (copying_not_patching (copyFile_copying _ _ _ _))) fun hc => ?_
  refine andThen_follow (makeDirectories_follow _ _) fun _ => ?_
  refine andThen_follow (patch_follow _ ?_) fun _ => libsLoop_follow _ _ _
  exact List.mem_append_left _ (List.mem_append_right _ (copyFile_writes hc))

theorem mem_writeTargets {t : List Event} {p : String} (h : p ∈ writeTargets t) :
    ∃ data perm, Event.writeFile p data perm ∈ t := by
  unfold writeTargets at h
  obtain ⟨ev, hev, h2⟩ := List.mem_filterMap.1 h
  cases ev <;> simp at h2
  subst h2
  exact ⟨_, _, hev⟩

end Relocation

/-! ## Resolution as `uhaulIt` runs it -/

section Resolution
variable {list : String → Option (List String)} {stat : String → Bool}

theorem NewDAG_AddVertex (bin : String) :
    NewDAG.AddVertex bin = ((0, none), ⟨[(0, bin)], []⟩) := by
  simp [DAG.AddVertex, NewDAG, DAG.values]

theorem Inv.init (list : String → Option (List String)) (bin : String) :
    Inv list bin (NewDAG.AddVertex bin).2 := by
  rw [NewDAG_AddVertex]
  exact ⟨rfl, by simp [DAG.values], rfl, rfl, by simp, by simp⟩

theorem resolve_post {fuel : Nat} {bin : String} {r : Option Err × DAG × List Event}
    (h : resolve list stat fuel bin = some r) :
    Post list stat bin (NewDAG.AddVertex bin).2 bin r := by
  refine deps_post fuel bin _ _ r (Inv.init list bin) ?_ h
  rw [NewDAG_AddVertex]
  rfl

theorem mem_init_values {bin x : String} : x ∈ (NewDAG.AddVertex bin).2.values ↔ x = bin := by
  rw [NewDAG_AddVertex]
  simp [DAG.values]

/-- After a resolution that went through, every vertex has been expanded and
every vertex other than the binary has been found on disk. -/
theorem resolve_closed {fuel : Nat} {bin : String} {d : DAG} {t : List Event}
    (h : resolve list stat fuel bin = some (none, d, t)) :
    ∀ x ∈ d.values, Closed list d x ∧ (x ≠ bin → stat x = true) := by
  have P := resolve_post h
  obtain ⟨h1, h2⟩ := P.closed rfl
  intro x hx
  by_cases hxb : x = bin
  · subst hxb
    exact ⟨h1, fun hne => absurd rfl hne⟩
  · have := h2 x hx (fun hm => hxb (mem_init_values.1 hm))
    exact ⟨this.1, fun _ => this.2⟩

end Resolution

/-! ## The runs of `uhaulIt` -/

section Run
variable {σ : Type} {w : World σ}

theorem locate_events (s : σ) (arg : String) :
    ∀ ev ∈ (locate w s arg).2, ev.resolving = true := by
  unfold locate
  split
  · intro ev hev
    rw [List.mem_singleton.1 hev]; rfl
  · intro ev hev
    simp only [List.mem_cons, List.mem_singleton, List.not_mem_nil, or_false] at hev
    rcases hev with rfl | rfl <;> rfl

theorem locate_stat {s : σ} {arg bin : String} (h : (locate w s arg).1 = some bin) :
    w.stat s bin = true := by
  unfold locate at h
  split at h
  · next hs =>
    simp only [Option.some.injEq] at h
    rw [← h]; exact hs
  · exact w.lookPath_stat s arg bin h

/-- The three ways in which `uhaulIt` returns: the binary is not found, the
resolution fails, or the resolution goes through and the relocation stage is
run on the closure. -/
theorem uhaulIt_cases {rangeOrder : List (VertexID × String) → List (VertexID × String)}
    {fuel : Nat} {flags : Flags} {arg : String} {s : σ} {r : Option Err × σ × List Event}
    (h : uhaulIt w rangeOrder fuel flags arg s = some r) :
    ((locate w s arg).1 = none ∧ r = (some (.call (.lookPath arg)), s, (locate w s arg).2)) ∨
    (∃ bin e d t2, (locate w s arg).1 = some bin ∧
      resolve (w.lddList s) (w.stat s) fuel bin = some (some e, d, t2) ∧
      r = (some e, s, preamble w s arg bin t2)) ∨
    (∃ bin d t2 m, (locate w s arg).1 = some bin ∧
      resolve (w.lddList s) (w.stat s) fuel bin = some (none, d, t2) ∧
      d.GetDescendants (NewDAG.AddVertex bin).1.1 = .ok m ∧
      r = after (preamble w s arg bin t2) (relocate w flags bin (rangeOrder m) s)) := by
  unfold uhaulIt at h
  cases hloc : locate w s arg with
  | mk b t0 =>
    rw [hloc] at h
    cases b with
    | none =>
      simp only [Option.some.injEq] at h
      exact Or.inl ⟨rfl, h.symm⟩
    | some bin =>
      simp only [NewDAG_AddVertex, Option.isNone_none] at h
      have hres : resolve (w.lddList s) (w.stat s) fuel bin =
          deps (w.lddList s) (w.stat s) fuel bin 0 ⟨[(0, bin)], []⟩ := by
        simp only [resolve, NewDAG_AddVertex]
      rw [← hres] at h
      cases hr : resolve (w.lddList s) (w.stat s) fuel bin with
      | none => rw [hr] at h; cases h
      | some r2 =>
        obtain ⟨e, d, t2⟩ := r2
        rw [hr] at h
        cases e with
        | some e =>
          simp only [Option.some.injEq] at h
          refine Or.inr (Or.inl ⟨bin, e, d, t2, rfl, hr, ?_⟩)
          rw [← h, preamble, hloc]
        | none =>
          have P := resolve_post hr
          have hc := resolve_closed hr
          obtain ⟨m, hm, _⟩ := GetDescendants_spec P.inv (fun x hx => (hc x hx).1)
          simp only [hm, Option.some.injEq] at h
          refine Or.inr (Or.inr ⟨bin, d, t2, m, rfl, hr, ?_, ?_⟩)
          · rw [NewDAG_AddVertex]; exact hm
          · rw [← h, preamble, hloc]

theorem resolving_not_relocating {t : List Event} (h : ∀ ev ∈ t, ev.resolving = true) :
    ∀ ev ∈ t, ev.relocating = false := by
  intro ev hev
  have := h ev hev
  cases ev <;> first | rfl | cases this

theorem preamble_resolving {s : σ} {arg bin : String} {t2 : List Event}
    (h : ∀ ev ∈ t2, ev.resolving = true) :
    ∀ ev ∈ preamble w s arg bin t2, ev.resolving = true := by
  intro ev hev
  simp only [preamble, List.mem_append, List.mem_singleton] at hev
  rcases hev with (hev | rfl) | hev
  · exact locate_events s arg ev hev
  · rfl
  · exact h ev hev

theorem run_resolving (s : σ) {t : List Event} (h : ∀ ev ∈ t, ev.resolving = true) :
    w.run s t = s := by
  induction t with
  | nil => rfl
  | cons e t ih =>
    have he := h e (List.mem_cons_self _ _)
    have : w.exec s e = s := by
      cases e <;> first | rfl | cases he
    show w.run (w.exec s e) t = s
    rw [this]
    exact ih (fun ev hev => h ev (List.mem_cons_of_mem _ hev))

/-- A run of `uhaulIt` that went through: the binary was found, the
resolution went through, and the trace is the calls before the relocation
stage, the layout of the output directory, the copy and the patch of the
binary, and the copy and the patch of each entry of the closure in the order
of the loop. -/
theorem uhaulIt_ok {rangeOrder : List (VertexID × String) → List (VertexID × String)}
    {fuel : Nat} {flags : Flags} {arg : String} {s s2 : σ} {t : List Event}
    (h : uhaulIt w rangeOrder fuel flags arg s = some (none, s2, t)) :
    ∃ bin d t2 m t1 data tl, (locate w s arg).1 = some bin ∧
      resolve (w.lddList s) (w.stat s) fuel bin = some (none, d, t2) ∧
      d.GetDescendants (NewDAG.AddVertex bin).1.1 = .ok m ∧
      t = preamble w s arg bin t2 ++ (t1 ++ (binEvents flags bin data ++ tl)) ∧
      (∀ ev ∈ preamble w s arg bin t2, ev.resolving = true) ∧
      (∀ ev ∈ t1, ev.layout = true) ∧
      w.readFile (w.run s (preamble w s arg bin t2 ++ t1)) bin = some data ∧
      LibsTrace w (libDir flags)
        (w.run s (preamble w s arg bin t2 ++ (t1 ++ binEvents flags bin data)))
        (rangeOrder m) tl := by
  rcases uhaulIt_cases h with ⟨_, hr⟩ | ⟨bin, e, d, t2, _, _, hr⟩ | ⟨bin, d, t2, m, hl, hres, hm, hr⟩
  · cases hr
  · cases hr
  · obtain ⟨t3, h3, rfl⟩ := after_ok hr.symm
    obtain ⟨t1, data, tl, rfl, hlay, hread, hlibs, _⟩ := relocate_ok h3
    have hpre : ∀ ev ∈ preamble w s arg bin t2, ev.resolving = true :=
      preamble_resolving (resolve_post hres).calls
    refine ⟨bin, d, t2, m, t1, data, tl, hl, hres, hm, rfl, hpre, hlay, ?_, ?_⟩
    · rw [run_append, run_resolving s hpre]; exact hread
    · rw [run_append, run_resolving s hpre]; exact hlibs

theorem patches_append (t1 t2 : List Event) :
    patches (t1 ++ t2) = patches t1 ++ patches t2 := by
  simp [patches, List.filterMap_append]

theorem patches_eq_nil {t : List Event} (h : ∀ ev ∈ t, ev.patching = false) :
    patches t = [] := by
  unfold patches
  rw [List.filterMap_eq_nil_iff]
  intro ev hev
  have := h ev hev
  cases ev <;> first | rfl | cases this

theorem resolving_plain {t : List Event} (h : ∀ ev ∈ t, ev.resolving = true) :
    ∀ ev ∈ t, ev.copying = false ∧ ev.patching = false := by
  intro ev hev
  have := h ev hev
  cases ev <;> first | exact ⟨rfl, rfl⟩ | cases this

theorem layout_plain {t : List Event} (h : ∀ ev ∈ t, ev.layout = true) :
    ∀ ev ∈ t, ev.copying = false ∧ ev.patching = false := by
  intro ev hev
  have := h ev hev
  cases ev <;> first | exact ⟨rfl, rfl⟩ | cases this

theorem LibsTrace.patches_eq {libDir : String} :
    ∀ (m : List (VertexID × String)) (s : σ) (t : List Event),
      LibsTrace w libDir s m t →
        patches t = m.map (fun p => ("$ORIGIN", Join libDir (fileOf p.2))) := by
  intro m
  induction m with
  | nil => intro s t h; rw [show t = [] from h]; rfl
  | cons p m ih =>
    intro s t h
    obtain ⟨i, libs⟩ := p
    obtain ⟨data, t2, _, rfl, h2⟩ := h
    rw [patches_append, ih _ _ h2]
    rfl

theorem mem_queries {t : List Event} {p : String} : p ∈ queries t ↔ Event.lddList p ∈ t := by
  unfold queries
  rw [List.mem_filterMap]
  constructor
  · rintro ⟨ev, hev, h⟩
    cases ev <;> simp at h
    subst h
    exact hev
  · intro h
    exact ⟨_, h, rfl⟩

/-- After a resolution that went through, from a binary that is on disk, the
lister has answered for every vertex and all it reported is on disk. -/
theorem resolve_not_failing {list : String → Option (List String)} {stat : String → Bool}
    {fuel : Nat} {bin : String} {d : DAG} {t : List Event}
    (h : resolve list stat fuel bin = some (none, d, t)) (hs : stat bin = true)
    {p : String} (hp : p ∈ d.values) : ¬ Failing list stat p := by
  have hc := resolve_closed h
  obtain ⟨ds, h1, h2⟩ := (hc p hp).1
  rintro (hf | ⟨ds2, x, h3, h4, h5⟩)
  · rw [h1] at hf; cases hf
  · rw [h1] at h3
    cases h3
    have hx := h2 x h4
    by_cases hxb : x = bin
    · rw [hxb, hs] at h5; cases h5
    · rw [(hc x hx).2 hxb] at h5; cases h5

theorem uhaulIt_of_resolve_error
    {rangeOrder : List (VertexID × String) → List (VertexID × String)}
    {fuel : Nat} {flags : Flags} {arg : String} {s : σ} {bin : String} {e : Err} {d : DAG}
    {t2 : List Event} (hl : (locate w s arg).1 = some bin)
    (hr : resolve (w.lddList s) (w.stat s) fuel bin = some (some e, d, t2)) :
    uhaulIt w rangeOrder fuel flags arg s = some (some e, s, preamble w s arg bin t2) := by
  unfold uhaulIt
  cases hloc : locate w s arg with
  | mk b t0 =>
    rw [hloc] at hl
    simp only at hl
    subst hl
    simp only [NewDAG_AddVertex, Option.isNone_none]
    have hres : resolve (w.lddList s) (w.stat s) fuel bin =
        deps (w.lddList s) (w.stat s) fuel bin 0 ⟨[(0, bin)], []⟩ := by
      simp only [resolve, NewDAG_AddVertex]
    rw [← hres, hr, preamble, hloc]

theorem lddList_not_mem_locate (s : σ) (arg p : String) :
    Event.lddList p ∉ (locate w s arg).2 := by
  intro h
  have := locate_events (w := w) s arg _ h
  unfold locate at h
  split at h <;> simp at h

/-- Whatever its outcome, a run of `uhaulIt` patches only what it has written
before. -/
theorem uhaulIt_follow {rangeOrder : List (VertexID × String) → List (VertexID × String)}
    {fuel : Nat} {flags : Flags} {arg : String} {s s2 : σ} {e : Option Err} {t : List Event}
    (h : uhaulIt w rangeOrder fuel flags arg s = some (e, s2, t)) :
    PatchesFollowWrites t := by
  have key : PatchesFollow [] t := by
    rcases uhaulIt_cases h with ⟨_, hr⟩ | ⟨bin, e2, d, t2, _, hres, hr⟩ |
      ⟨bin, d, t2, m, hl, hres, hm, hr⟩
    · cases hr
      exact PatchesFollow.of_no_patch
        (fun ev hev => (resolving_plain (locate_events s arg) ev hev).2)
    · cases hr
      exact PatchesFollow.of_no_patch (fun ev hev =>
        (resolving_plain (preamble_resolving (resolve_post hres).calls) ev hev).2)
    · have ht : t = preamble w s arg bin t2 ++ (relocate w flags bin (rangeOrder m) s).2.2 :=
        congrArg (fun x => x.2.2) hr
      rw [ht]
      refine PatchesFollow.append (PatchesFollow.of_no_patch (fun ev hev =>
        (resolving_plain (preamble_resolving (resolve_post hres).calls) ev hev).2)) ?_
      exact (relocate_follow flags bin (rangeOrder m) s).weaken (fun x hx => by cases hx)
  intro pre post rpath target ht
  rcases key pre post rpath target ht with hk | hk
  · cases hk
  · exact mem_writeTargets hk

end Run

/-! ## Facts about paths -/

section Final
variable {σ : Type} {w : World σ} {patched : String → Bytes → Bytes}

end Final

/-! ## The claims about resolution -/

/-- C1: when resolution succeeds, `GetDescendants` of the root returns a map
whose values are, each once, exactly the paths other than the root binary that
are reachable from it by one or more direct-dependency steps of the lister. -/
theorem closure_eq_reachable (list : String → Option (List String)) (stat : String → Bool)
    (fuel : Nat) (bin : String) (d : DAG) (t : List Event)
    (h : resolve list stat fuel bin = some (none, d, t)) :
    ∃ m, d.GetDescendants (NewDAG.AddVertex bin).1.1 = .ok m ∧ (m.map Prod.snd).Nodup ∧
      ∀ p, p ∈ m.map Prod.snd ↔ (p ≠ bin ∧ Relation.TransGen (listStep list) bin p) := by
  have P := resolve_post h
  have hc := resolve_closed h
  rw [NewDAG_AddVertex]
  exact GetDescendants_spec P.inv (fun x hx => (hc x hx).1)

/-- The chain `app -> libfoo.so -> libbar.so` resolves, its closure holds
`libfoo.so` and `libbar.so`, and `closure_eq_reachable` applies to it. -/
theorem closure_eq_reachable_witness :
    (resolve (tableList chainTable) (fun _ => true) 3 "app").map (fun r => (r.1, r.2.1)) =
        some (none, ⟨[(0, "app"), (1, "libfoo.so"), (2, "libbar.so")],
          [("app", "libfoo.so"), ("libfoo.so", "libbar.so")]⟩) ∧
      DAG.GetDescendants ⟨[(0, "app"), (1, "libfoo.so"), (2, "libbar.so")],
          [("app", "libfoo.so"), ("libfoo.so", "libbar.so")]⟩ 0 =
        .ok [(1, "libfoo.so"), (2, "libbar.so")] ∧
      ∃ m, DAG.GetDescendants ⟨[(0, "app"), (1, "libfoo.so"), (2, "libbar.so")],
          [("app", "libfoo.so"), ("libfoo.so", "libbar.so")]⟩ (NewDAG.AddVertex "app").1.1 =
          .ok m ∧ (m.map Prod.snd).Nodup ∧
        ∀ p, p ∈ m.map Prod.snd ↔
          (p ≠ "app" ∧ Relation.TransGen (listStep (tableList chainTable)) "app" p) :=
  ⟨by decide, rfl,
    closure_eq_reachable (tableList chainTable) (fun _ => true) 3 "app" _ _ rfl⟩

/-- C9: when the paths reachable from the root binary lie in a finite list
`univ` (closed under the steps of the lister; cycles allowed), resolution
returns for every depth bound from some bound on, and in its trace no path is
queried twice and every queried path is a vertex of the graph (the binary, or
a dependency whose vertex was added during the resolution). -/
theorem resolution_terminates (list : String → Option (List String)) (stat : String → Bool)
    (bin : String) (univ : List String) (hb : bin ∈ univ)
    (hcl : ∀ p ∈ univ, ∀ y, listStep list p y → y ∈ univ) :
    ∃ fuel0, ∀ fuel, fuel0 ≤ fuel → ∃ r, resolve list stat fuel bin = some r ∧
      (queries r.2.2).Nodup ∧ ∀ q ∈ queries r.2.2, q ∈ r.2.1.values ∧
        (q ≠ bin → q ∉ (NewDAG.AddVertex bin).2.values) := by
  refine ⟨missing univ (NewDAG.AddVertex bin).2 + 1, ?_⟩
  intro fuel hf
  have hret : (resolve list stat fuel bin).isSome = true := by
    refine deps_returns hcl fuel bin _ _ (Inv.init list bin) ?_ hb
      (Nat.lt_of_succ_le hf)
    rw [NewDAG_AddVertex]
    rfl
  obtain ⟨r, hr⟩ := Option.isSome_iff_exists.1 hret
  have P := resolve_post hr
  refine ⟨r, hr, P.once, ?_⟩
  intro q hq
  rcases P.fresh q hq with rfl | ⟨h1, h2⟩
  · exact ⟨values_mono P.grows (mem_init_values.2 rfl), fun hne => absurd rfl hne⟩
  · exact ⟨h1, fun _ => h2⟩

/-- The cyclic dependencies `app -> a`, `a -> b, app`, `b -> a` stay within
three paths, so `resolution_terminates` applies to them; with depth bound 3 the
lister is queried once for each of the three paths. -/
theorem resolution_terminates_witness :
    (resolve (tableList cycleTable) (fun _ => true) 3 "app").map
        (fun r => (r.1, queries r.2.2)) = some (none, ["app", "a", "b"]) ∧
      ∃ fuel0, ∀ fuel, fuel0 ≤ fuel →
        ∃ r, resolve (tableList cycleTable) (fun _ => true) fuel "app" = some r ∧
          (queries r.2.2).Nodup ∧ ∀ q ∈ queries r.2.2, q ∈ r.2.1.values ∧
            (q ≠ "app" → q ∉ (NewDAG.AddVertex "app").2.values) :=
  ⟨by decide,
    resolution_terminates (tableList cycleTable) (fun _ => true) "app" ["app", "a", "b"]
      (by decide)
      (by
        intro p hp y hy
        obtain ⟨ds, h1, h2⟩ := hy
        simp only [List.mem_cons, List.mem_singleton, List.not_mem_nil, or_false] at hp
        rcases hp with rfl | rfl | rfl
        · have : ds = ["a"] := by
            have h3 : tableList cycleTable "app" = some ["a"] := by decide
            rw [h3] at h1
            exact (Option.some.inj h1).symm
          subst this
          obtain rfl : y = "a" := by simpa using h2
          simp
        · have : ds = ["b", "app"] := by
            have h3 : tableList cycleTable "a" = some ["b", "app"] := by decide
            rw [h3] at h1
            exact (Option.some.inj h1).symm
          subst this
          simp only [List.mem_cons, List.mem_singleton, List.not_mem_nil, or_false] at h2 ⊢
          rcases h2 with rfl | rfl <;> simp
        · have : ds = ["a"] := by
            have h3 : tableList cycleTable "b" = some ["a"] := by decide
            rw [h3] at h1
            exact (Option.some.inj h1).symm
          subst this
          obtain rfl : y = "a" := by simpa using h2
          simp)⟩

/-- C3: let the lister fail on the path `p`, or report for `p` a dependency
that is not on disk. Every run of `uhaulIt` in which the lister is queried for
`p` returns an error, leaves the file system as it was, and has made no call
of the relocation stage (no directory creation, clean, copy or patch). And
when `p` is reachable from the binary and the reachable paths lie in a finite
list, `uhaulIt` does return, for every depth bound from some bound on, with
an error and without any such call. -/
theorem resolution_failure_has_no_effects {σ : Type} (w : World σ)
    (rangeOrder : List (VertexID × String) → List (VertexID × String)) (flags : Flags)
    (arg : String) (s : σ) (p : String) (hbad : Failing (w.lddList s) (w.stat s) p) :
    (∀ fuel r, uhaulIt w rangeOrder fuel flags arg s = some r → Event.lddList p ∈ r.2.2 →
      r.1 ≠ none ∧ r.2.1 = s ∧ ∀ ev ∈ r.2.2, ev.relocating = false) ∧
    (∀ (bin : String) (univ : List String), (locate w s arg).1 = some bin → bin ∈ univ →
      (∀ q ∈ univ, ∀ y, listStep (w.lddList s) q y → y ∈ univ) →
      Relation.ReflTransGen (listStep (w.lddList s)) bin p →
      ∃ fuel0, ∀ fuel, fuel0 ≤ fuel → ∃ r, uhaulIt w rangeOrder fuel flags arg s = some r ∧
        r.1 ≠ none ∧ r.2.1 = s ∧ ∀ ev ∈ r.2.2, ev.relocating = false) := by
  constructor
  · intro fuel r h hq
    rcases uhaulIt_cases h with ⟨_, rfl⟩ | ⟨bin, e, d, t2, _, hres, rfl⟩ |
      ⟨bin, d, t2, m, hl, hres, hm, rfl⟩
    · exact ⟨by simp, rfl, resolving_not_relocating (locate_events s arg)⟩
    · exact ⟨by simp, rfl,
        resolving_not_relocating (preamble_resolving (resolve_post hres).calls)⟩
    · exfalso
      have P := resolve_post hres
      have hq2 : Event.lddList p ∈ preamble w s arg bin t2 ++
          (relocate w flags bin (rangeOrder m) s).2.2 := hq
      rcases List.mem_append.1 hq2 with hq3 | hq3
      · simp only [preamble, List.mem_append, List.mem_singleton] at hq3
        have hpq : p ∈ queries t2 := by
          rcases hq3 with (hq3 | hq3) | hq3
          · exact absurd hq3 (lddList_not_mem_locate s arg p)
          · cases hq3
          · exact mem_queries.2 hq3
        have hpv : p ∈ d.values := by
          rcases P.fresh p hpq with rfl | ⟨h1, _⟩
          · exact values_mono P.grows (mem_init_values.2 rfl)
          · exact h1
        exact resolve_not_failing hres (locate_stat hl) hpv hbad
      · have := relocate_relocating flags bin (rangeOrder m) s _ hq3
        cases this
  · intro bin univ hl hb hcl hreach
    refine ⟨missing univ (NewDAG.AddVertex bin).2 + 1, ?_⟩
    intro fuel hf
    have hret : (resolve (w.lddList s) (w.stat s) fuel bin).isSome = true := by
      refine deps_returns hcl fuel bin _ _ (Inv.init _ bin) ?_ hb
        (Nat.lt_of_succ_le hf)
      rw [NewDAG_AddVertex]
      rfl
    obtain ⟨r2, hr2⟩ := Option.isSome_iff_exists.1 hret
    obtain ⟨e, d, t2⟩ := r2
    cases e with
    | none =>
      exfalso
      have P := resolve_post hr2
      have hc := resolve_closed hr2
      have hpv : p ∈ d.values := reach_mem_values P.inv (fun x hx => (hc x hx).1) hreach
      exact resolve_not_failing hr2 (locate_stat hl) hpv hbad
    | some e =>
      refine ⟨_, uhaulIt_of_resolve_error hl hr2, by simp, rfl, ?_⟩
      exact resolving_not_relocating (preamble_resolving (resolve_post hr2).calls)

/-- The lister reports `libgone.so` for `app`, which is not on disk: the run
returns the error of `os.Stat` after the calls of the resolution only, and
`resolution_failure_has_no_effects` applies. -/
theorem resolution_failure_has_no_effects_witness :
    Failing (goneWorld.lddList goneFiles) (goneWorld.stat goneFiles) "app" ∧
      uhaulIt goneWorld id 2 defaultFlags "app" goneFiles =
        some (some (.call (.stat "libgone.so")), goneFiles,
          [.stat "app", .addVertex "app" true, .lddList "app", .addVertex "libgone.so" true,
            .addEdge 0 1 true, .stat "libgone.so"]) ∧
      ((∀ fuel r, uhaulIt goneWorld id fuel defaultFlags "app" goneFiles = some r →
          Event.lddList "app" ∈ r.2.2 →
          r.1 ≠ none ∧ r.2.1 = goneFiles ∧ ∀ ev ∈ r.2.2, ev.relocating = false) ∧
        (∀ (bin : String) (univ : List String),
          (locate goneWorld goneFiles "app").1 = some bin → bin ∈ univ →
          (∀ q ∈ univ, ∀ y, listStep (goneWorld.lddList goneFiles) q y → y ∈ univ) →
          Relation.ReflTransGen (listStep (goneWorld.lddList goneFiles)) bin "app" →
          ∃ fuel0, ∀ fuel, fuel0 ≤ fuel →
            ∃ r, uhaulIt goneWorld id fuel defaultFlags "app" goneFiles = some r ∧
              r.1 ≠ none ∧ r.2.1 = goneFiles ∧ ∀ ev ∈ r.2.2, ev.relocating = false)) :=
  ⟨Or.inr ⟨["libgone.so"], "libgone.so", by decide, by decide, by decide⟩, by decide,
    resolution_failure_has_no_effects goneWorld id defaultFlags "app" goneFiles "app"
      (Or.inr ⟨["libgone.so"], "libgone.so", by decide, by decide, by decide⟩)⟩

/-- C4, as stated, fails for a binary that already lies where its copy goes:
with the default flags and the binary `out/opt/uhaul/bin/app`, the run goes
through, the one copy reads `out/opt/uhaul/bin/app`, and the one patch has
that same path, the original, as its target. -/
theorem patch_targets_original :
    (uhaulIt inPlaceWorld id 1 defaultFlags "out/opt/uhaul/bin/app" inPlaceFiles).map
        (fun r => (r.1, copySources r.2.2, patches r.2.2)) =
      some (none, ["out/opt/uhaul/bin/app"],
        [("$ORIGIN/../lib", "out/opt/uhaul/bin/app")]) := by
  decide

/-- C4, amended: in a run that went through, the patches are, in this order,
one with the search path `$ORIGIN/../lib` on the copy of the binary at
`<out>/<prefix>/bin/<base name>`, and one with the search path `$ORIGIN` for
each path of the closure on its copy at `<out>/<prefix>/lib/<base name>`; and
every patch comes after a write to its target by the same run. -/
theorem patches_issued {σ : Type} (w : World σ)
    (rangeOrder : List (VertexID × String) → List (VertexID × String))
    (hperm : ∀ l, (rangeOrder l).Perm l) (fuel : Nat) (flags : Flags) (arg : String)
    (s s2 : σ) (t : List Event)
    (h : uhaulIt w rangeOrder fuel flags arg s = some (none, s2, t)) :
    ∃ (bin : String) (d : DAG) (t2 : List Event) (m : List (VertexID × String))
      (libs : List String), (locate w s arg).1 = some bin ∧
      resolve (w.lddList s) (w.stat s) fuel bin = some (none, d, t2) ∧
      d.GetDescendants (NewDAG.AddVertex bin).1.1 = .ok m ∧
      libs.Perm (m.map Prod.snd) ∧
      patches t = ("$ORIGIN/../lib", binOut flags bin) ::
        libs.map (fun l => ("$ORIGIN", libOut flags l)) ∧
      PatchesFollowWrites t := by
  have hfollow := uhaulIt_follow h
  obtain ⟨bin, d, t2, m, t1, data, tl, hl, hres, hm, rfl, hpre, hlay, _, hlibs⟩ := uhaulIt_ok h
  refine ⟨bin, d, t2, m, (rangeOrder m).map Prod.snd, hl, hres, hm, (hperm m).map _, ?_,
    hfollow⟩
  rw [patches_append, patches_append, patches_append,
    patches_eq_nil (fun ev hev => (resolving_plain hpre ev hev).2),
    patches_eq_nil (fun ev hev => (layout_plain hlay ev hev).2),
    LibsTrace.patches_eq _ _ _ hlibs, List.map_map]
  rfl

/-- On the chain, the run goes through with the patches of `app`,
`libfoo.so` and `libbar.so`, and `patches_issued` applies. -/
theorem patches_issued_witness :
    uhaulIt chainWorld id 3 defaultFlags "app" chainFiles =
        some (none, chainRun.2.1, chainRun.2.2) ∧
      patches chainRun.2.2 = [("$ORIGIN/../lib", "out/opt/uhaul/bin/app"),
        ("$ORIGIN", "out/opt/uhaul/lib/libfoo.so"),
        ("$ORIGIN", "out/opt/uhaul/lib/libbar.so")] ∧
      ∃ (bin : String) (d : DAG) (t2 : List Event) (m : List (VertexID × String))
        (libs : List String), (locate chainWorld chainFiles "app").1 = some bin ∧
        resolve (chainWorld.lddList chainFiles) (chainWorld.stat chainFiles) 3 bin =
          some (none, d, t2) ∧
        d.GetDescendants (NewDAG.AddVertex bin).1.1 = .ok m ∧
        libs.Perm (m.map Prod.snd) ∧
        patches chainRun.2.2 = ("$ORIGIN/../lib", binOut defaultFlags bin) ::
          libs.map (fun l => ("$ORIGIN", libOut defaultFlags l)) ∧
        PatchesFollowWrites chainRun.2.2 :=
  ⟨by decide, by decide,
    patches_issued chainWorld id (fun l => List.Perm.refl l) 3 defaultFlags "app" chainFiles
      chainRun.2.1 chainRun.2.2 (by decide)⟩

/-- C6, as stated, fails on the chain `app -> libfoo.so -> libbar.so`: the
copies and the patches of the run are interleaved, the copy of each library
coming after the patch of the binary. -/
theorem copies_follow_patches :
    (uhaulIt chainWorld id 3 defaultFlags "app" chainFiles).map
        (fun r => (r.1, r.2.2.filter (fun ev => ev.copying || ev.patching))) =
      some (none,
        [.readFile "app", .writeFile "out/opt/uhaul/bin/app" [0] 0o755,
          .chmod "out/opt/uhaul/bin/app" 0o755,
          .patchelf "$ORIGIN/../lib" "out/opt/uhaul/bin/app",
          .readFile "libfoo.so", .writeFile "out/opt/uhaul/lib/libfoo.so" [1] 0o755,
          .patchelf "$ORIGIN" "out/opt/uhaul/lib/libfoo.so",
          .readFile "libbar.so", .writeFile "out/opt/uhaul/lib/libbar.so" [2] 0o755,
          .patchelf "$ORIGIN" "out/opt/uhaul/lib/libbar.so"]) := by
  decide

/-- C6, amended: in every run of `uhaulIt`, whatever its outcome, every
search-path patch comes after a write to its target by a copy of the same
run. -/
theorem patch_after_copy {σ : Type} (w : World σ)
    (rangeOrder : List (VertexID × String) → List (VertexID × String))
    (fuel : Nat) (flags : Flags) (arg : String) (s : σ) (r : Option Err × σ × List Event)
    (h : uhaulIt w rangeOrder fuel flags arg s = some r) :
    PatchesFollowWrites r.2.2 := by
  obtain ⟨e, s2, t⟩ := r
  exact uhaulIt_follow h

/-- On the chain, the run returns and `patch_after_copy` applies to it. -/
theorem patch_after_copy_witness :
    uhaulIt chainWorld id 3 defaultFlags "app" chainFiles = some chainRun ∧
      PatchesFollowWrites chainRun.2.2 :=
  ⟨by decide,
    patch_after_copy chainWorld id 3 defaultFlags "app" chainFiles chainRun (by decide)⟩

/-- C7 fails on the code: for the output directory `out` with the one entry
`old`, `cleanDirectory("out")` calls `os.RemoveAll("old")`, a path relative to
the working directory, and not `os.RemoveAll("out/old")`. The child `out/old`
stays, and the file `old` of the working directory, outside `out`, is removed. -/
theorem cleanDirectory_removes_relative_name :
    cleanDirectory cleanWorld "out" cleanFiles =
        (none, [("out/old", [1])], [.readDir "out", .removeAll "old"]) ∧
      Join "out" "old" = "out/old" ∧
      cleanFiles = [("out/old", [1]), ("old", [2])] := by
  decide

end Uhaul
